import Mathlib

/-!
# Load-balancing simulation: workers, dispatcher and the round loop

A shallow embedding of `Request.h`, `WebServer.h`/`WebServer.cpp` and
`LoadBalancer.h`/`LoadBalancer.cpp`.

Conventions of the embedding.
* `int` members are `Int`. The additions `currentLoad += req.processingTime` and
  `time + duration` (the loop bound of `go`) are computed by `intAdd`: the sum
  wrapped into the range of `int` (two's complement, 32 bit). Decrements,
  increments and counters are taken in `Int`.
* `std::queue<Request>` is a `List Request`, front of the queue = head of the list.
* The comparison `jobQueue.size() < maxQueueSize` mixes `size_t` and `int`; the
  `int` operand is converted to `size_t` first, which is modelled by `toSizeT`.
* Output written by a function (log file or standard output) is returned as a list
  of `LogLine`s next to the new state.
* `std::priority_queue` is a parameter of the dispatcher: any container
  satisfying the contract `PriorityQueue` below; `listQueue` is one instance.
* `std::rand` is a parameter `rand : Nat → Nat`, the sequence of values that the
  successive calls return; the state records how many calls were made.
* An operation whose behaviour is undefined (`top()` of an empty priority
  queue) returns `none`.
-/

namespace LoadBalancing

/-! ## Request.h -/

/-- The struct `Request`. -/
structure Request where
  ipIn : String
  ipOut : String
  processingTime : Int
  jobType : String
deriving DecidableEq

/-- The default constructor `Request()`. -/
def Request.default : Request :=
  ⟨"0.0.0.0", "0.0.0.0", 0, "UNKNOWN"⟩

/-! ## Output lines -/

/-- Range printed by `logCycleInfo`: `[No tasks]` or `[min-max] clock cycles`. -/
inductive TaskRange where
  | noTasks
  | range (minTaskTime maxTaskTime : Int)
deriving DecidableEq

/-- One line of output, of a server or of the load balancer. -/
inductive LogLine where
  | processing (id : Int) (ipIn : String) (timeRemaining : Int)
  | completed (id : Int) (ipIn : String)
  | rejected (id : Int) (ipIn : String)
  | header (servers : Nat) (runDuration : Int)
  | generated (ipIn ipOut : String) (processingTime : Int)
  | timeHeader (currentTime : Int) (startingQueueSize : Int)
  | cycleInfo (startingQueueSize endingQueueSize : Int) (taskRange : TaskRange)
  | activeServers (active inactive : Int)
  | finalStatus (remaining : Nat) (active inactive : Int) (discarded : Int)
deriving DecidableEq

/-! ## Arithmetic of `int` -/

/-- The largest `int`, `std::numeric_limits<int>::max()`. -/
def intMax : Int := 2147483647

/-- The smallest `int`, `std::numeric_limits<int>::min()`. -/
def intMin : Int := -2147483648

/-- The `int` (32 bit, two's complement) that is congruent to an integer modulo `2 ^ 32`. -/
def wrapInt (v : Int) : Int := (v + 2 ^ 31) % 2 ^ 32 - 2 ^ 31

/-- The sum of two `int`s as the machine computes it: the mathematical sum wrapped into
the range of `int`, so `2147483647 + 2147483647` is `-2`. Integers outside the range of
`int` are not values of the program; their sum is left as it is. -/
def intAdd (a b : Int) : Int :=
  if intMin ≤ a ∧ a ≤ intMax ∧ intMin ≤ b ∧ b ≤ intMax then wrapInt (a + b) else a + b

/-! ## WebServer.h, WebServer.cpp -/

/-- The data members of class `WebServer` (the log-file pointer is the output sink). -/
structure WebServer where
  id : Int
  currentLoad : Int
  jobQueue : List Request
  maxQueueSize : Int
deriving DecidableEq

/-- The constructor `WebServer::WebServer(serverID, maxQueueSize, logFilePtr)`. -/
def WebServer.init (serverID maxQueueSize : Int) : WebServer :=
  { id := serverID, currentLoad := 0, jobQueue := [], maxQueueSize := maxQueueSize }

/-- Conversion of an `int` to `size_t` (64 bit): the value modulo `2 ^ 64`. -/
def toSizeT (v : Int) : Nat := (v % 2 ^ 64).toNat

/-- `WebServer::canAcceptRequest`: `jobQueue.size() < maxQueueSize`, compared as `size_t`. -/
def WebServer.canAcceptRequest (s : WebServer) : Bool :=
  decide (s.jobQueue.length < toSizeT s.maxQueueSize)

/-- `WebServer::processJobs`: the new state and the lines written. -/
def WebServer.processJobs (s : WebServer) : WebServer × List LogLine :=
  match s.jobQueue with
  | [] => (s, [])
  | currentJob :: rest =>
    let line := LogLine.processing s.id currentJob.ipIn currentJob.processingTime
    let job : Request :=
      if currentJob.processingTime > 0 then
        { currentJob with processingTime := currentJob.processingTime - 1 }
      else currentJob
    let load : Int :=
      if currentJob.processingTime > 0 then
        (if s.currentLoad - 1 < 0 then 0 else s.currentLoad - 1)
      else s.currentLoad
    if job.processingTime ≤ 0 then
      ({ s with currentLoad := load, jobQueue := rest },
        [line, LogLine.completed s.id job.ipIn])
    else
      ({ s with currentLoad := load, jobQueue := job :: rest }, [line])

/-- `WebServer::isActive`. -/
def WebServer.isActive (s : WebServer) : Bool := !s.jobQueue.isEmpty

/-- `WebServer::addRequest`: the new state and the lines written. -/
def WebServer.addRequest (s : WebServer) (req : Request) : WebServer × List LogLine :=
  if s.canAcceptRequest then
    ({ s with jobQueue := s.jobQueue ++ [req],
              currentLoad := intAdd s.currentLoad req.processingTime }, [])
  else
    (s, [LogLine.rejected s.id req.ipIn])

/-- `WebServer::operator>`. -/
def WebServer.gt (a b : WebServer) : Bool := decide (a.currentLoad > b.currentLoad)

/-- One operation applied to a worker from outside: `addRequest(req)` or `processJobs()`. -/
inductive ServerOp where
  | addRequest (req : Request)
  | processJobs

/-- The state of a worker after one operation. -/
def WebServer.step (s : WebServer) : ServerOp → WebServer
  | .addRequest req => (s.addRequest req).1
  | .processJobs => s.processJobs.1

/-- The state of a worker after a finite sequence of operations. -/
def WebServer.run (s : WebServer) (ops : List ServerOp) : WebServer :=
  ops.foldl WebServer.step s

/-- The state of a worker after `n` calls of `processJobs`. -/
def WebServer.ticks : Nat → WebServer → WebServer
  | 0, s => s
  | n + 1, s => WebServer.ticks n s.processJobs.1

/-- Sum of `processingTime` over a queue of requests. -/
def queuedWork (jobs : List Request) : Int :=
  (jobs.map Request.processingTime).sum

/-- The bound `jobQueue.size() <= maxQueueSize` of a worker. -/
def WebServer.Bounded (s : WebServer) : Prop :=
  (s.jobQueue.length : Int) ≤ s.maxQueueSize

instance (s : WebServer) : Decidable s.Bounded :=
  inferInstanceAs (Decidable ((s.jobQueue.length : Int) ≤ s.maxQueueSize))

/-- The worker after the requests `jobs` have been appended to its queue and their
`processingTime` added to its load, one after the other as `addRequest` does. -/
def WebServer.withAdded (w : WebServer) (jobs : List Request) : WebServer :=
  { w with jobQueue := w.jobQueue ++ jobs,
           currentLoad := jobs.foldl (fun load j => intAdd load j.processingTime)
             w.currentLoad }

/-- Sum of the queue lengths of the servers of a pool. -/
def totalQueued (pool : List WebServer) : Nat :=
  (pool.map fun w => w.jobQueue.length).sum

/-! ## The priority queue of servers -/

/-- The contract of `std::priority_queue<WebServer, std::vector<WebServer>, std::greater<>>`:
`toList` is the content of the container, `top` is `none` exactly on the empty
container and otherwise an element that is `operator>` to no element, `pop` removes
the element `top` returns and `push` adds one element. Which of several
elements of equal load `top` returns is left to the implementation. -/
structure PriorityQueue where
  Q : Type
  toList : Q → List WebServer
  top : Q → Option WebServer
  pop : Q → Q
  push : Q → WebServer → Q
  top_none : ∀ q, top q = none ↔ toList q = []
  top_greater : ∀ q w, top q = some w → ∀ y ∈ toList q, WebServer.gt w y = false
  pop_perm : ∀ q w, top q = some w → (toList q).Perm (w :: toList (pop q))
  push_perm : ∀ q w, (toList (push q w)).Perm (w :: toList q)

/-- The member `size()` of the priority queue. -/
def PriorityQueue.size (P : PriorityQueue) (q : P.Q) : Nat := (P.toList q).length

/-- First element of a list that is `operator>` to no other element. -/
def listTop : List WebServer → Option WebServer
  | [] => none
  | w :: ws =>
    match listTop ws with
    | none => some w
    | some m => if WebServer.gt w m then some m else some w

/-- The list without the element that `listTop` returns. -/
def listPop : List WebServer → List WebServer
  | [] => []
  | w :: ws =>
    match listTop ws with
    | none => []
    | some m => if WebServer.gt w m then w :: listPop ws else ws

/-! ## LoadBalancer.h, LoadBalancer.cpp -/

/-- The data members of class `LoadBalancer`, the lines written to its log file
(`logOpen` says whether the file could be opened), the lines written by the
servers, and the number of calls of `std::rand` made so far. -/
structure LoadBalancer (P : PriorityQueue) where
  serverQueue : P.Q
  requestQueue : List Request
  time : Int
  duration : Int
  minTaskTime : Int
  maxTaskTime : Int
  discardedRequests : Int
  logOpen : Bool
  logFile : List LogLine
  serverOutput : List LogLine
  randCalls : Nat

/-- Writing lines to the log file: nothing is written to a file that is not open. -/
def LoadBalancer.write {P : PriorityQueue} (lb : LoadBalancer P) (lines : List LogLine) :
    LoadBalancer P :=
  if lb.logOpen then { lb with logFile := lb.logFile ++ lines } else lb

/-- The constructor `LoadBalancer::LoadBalancer(servers, requests, runTime, runDuration)`;
`logOpen` is whether `load_balancer_log.txt` could be opened. -/
def LoadBalancer.init (P : PriorityQueue) (servers : P.Q) (requests : List Request)
    (runTime runDuration : Int) (logOpen : Bool) : LoadBalancer P :=
  LoadBalancer.write
    { serverQueue := servers, requestQueue := requests, time := runTime,
      duration := runDuration, minTaskTime := intMax, maxTaskTime := intMin,
      discardedRequests := 0, logOpen := logOpen, logFile := [], serverOutput := [],
      randCalls := 0 }
    [LogLine.header (P.size servers) runDuration]

/-- What happened to one request taken from `requestQueue` by `distributeRequests`:
the content of `serverQueue` when it was taken, the server `top()` returned, whether
`addRequest` was called on it, and the lines `addRequest` wrote. -/
structure Offer where
  req : Request
  pool : List WebServer
  topServer : WebServer
  assigned : Bool
  output : List LogLine

/-- The first loop of `distributeRequests`, over `requestQueue`: the arguments are
`requestQueue`, `serverQueue`, `tempRequestQueue` and the offers made so far. -/
def distributeLoop (P : PriorityQueue) :
    List Request → P.Q → List Request → List Offer → Option (P.Q × List Request × List Offer)
  | [], q, temp, offers => some (q, temp, offers)
  | req :: requestQueue, q, temp, offers =>
    match P.top q with
    | none => none
    | some topServer =>
      let q1 := P.pop q
      let added : WebServer × List LogLine :=
        if topServer.canAcceptRequest then topServer.addRequest req else (topServer, [])
      let assigned : Bool := topServer.canAcceptRequest
      let q2 := P.push q1 added.1
      distributeLoop P requestQueue q2 (if assigned then temp else temp ++ [req])
        (offers ++ [⟨req, P.toList q, topServer, assigned, added.2⟩])

/-- The second loop of `distributeRequests`: moves `tempRequestQueue` (first argument)
to the back of `requestQueue` (second argument). -/
def refillLoop : List Request → List Request → List Request
  | [], requestQueue => requestQueue
  | r :: temp, requestQueue => refillLoop temp (requestQueue ++ [r])

/-- `LoadBalancer::distributeRequests`: the new state and the offers made. -/
def LoadBalancer.distributeRequests {P : PriorityQueue} (lb : LoadBalancer P) :
    Option (LoadBalancer P × List Offer) :=
  match distributeLoop P lb.requestQueue lb.serverQueue [] [] with
  | none => none
  | some (q, temp, offers) =>
    some ({ lb with serverQueue := q, requestQueue := refillLoop temp [],
                    serverOutput := lb.serverOutput ++ offers.flatMap Offer.output },
          offers)

/-- `LoadBalancer::addRandomRequests`; `rand i` is the value of the `i`-th call of `std::rand`. -/
def LoadBalancer.addRandomRequests {P : PriorityQueue} (rand : Nat → Nat)
    (lb : LoadBalancer P) : LoadBalancer P :=
  if rand lb.randCalls % 5 = 0 then
    let newRequest : Request :=
      { Request.default with
        ipIn := "192.168.0." ++ toString (rand (lb.randCalls + 1) % 255),
        ipOut := "10.0.0." ++ toString (rand (lb.randCalls + 2) % 255),
        processingTime := 10 + ((rand (lb.randCalls + 3) % 50 : Nat) : Int) }
    let lb1 := lb.write
      [LogLine.generated newRequest.ipIn newRequest.ipOut newRequest.processingTime]
    { lb1 with requestQueue := lb1.requestQueue ++ [newRequest],
               randCalls := lb.randCalls + 4 }
  else
    { lb with randCalls := lb.randCalls + 1 }

/-- `LoadBalancer::resetTaskTimeRange`. -/
def LoadBalancer.resetTaskTimeRange {P : PriorityQueue} (lb : LoadBalancer P) :
    LoadBalancer P :=
  { lb with minTaskTime := intMax, maxTaskTime := intMin }

/-- The range `logCycleInfo` prints for the current `minTaskTime` and `maxTaskTime`. -/
def LoadBalancer.taskRange {P : PriorityQueue} (lb : LoadBalancer P) : TaskRange :=
  if lb.minTaskTime = intMax ∨ lb.maxTaskTime = intMin then TaskRange.noTasks
  else TaskRange.range lb.minTaskTime lb.maxTaskTime

/-- `LoadBalancer::logCycleInfo`. -/
def LoadBalancer.logCycleInfo {P : PriorityQueue} (lb : LoadBalancer P)
    (_currentTime startingQueueSize endingQueueSize : Int) : LoadBalancer P :=
  lb.write [LogLine.cycleInfo startingQueueSize endingQueueSize lb.taskRange]

/-- The result of the loop of `go` that empties `serverQueue`: the queue left, the
vector `servers`, the two counters and the lines the servers wrote. -/
structure Advance (P : PriorityQueue) where
  serverQueue : P.Q
  servers : List WebServer
  activeServers : Int
  inactiveServers : Int
  output : List LogLine

/-- The loop `while (!serverQueue.empty())` of `go`, at most `fuel` iterations. -/
def advanceLoop (P : PriorityQueue) : Nat → Advance P → Advance P
  | 0, a => a
  | fuel + 1, a =>
    match P.top a.serverQueue with
    | none => a
    | some top =>
      let q := P.pop a.serverQueue
      let server := top.processJobs
      advanceLoop P fuel
        { serverQueue := q,
          servers := a.servers ++ [server.1],
          activeServers := if server.1.isActive then a.activeServers + 1 else a.activeServers,
          inactiveServers :=
            if server.1.isActive then a.inactiveServers else a.inactiveServers + 1,
          output := a.output ++ server.2 }

/-- The loop `for (auto& server : servers) serverQueue.push(server)` of `go`. -/
def pushAll (P : PriorityQueue) (q : P.Q) (servers : List WebServer) : P.Q :=
  servers.foldl P.push q

/-- The part of a round of `go` after `distributeRequests`, up to the second loop:
every server is taken from the queue, processes its jobs and is pushed back;
`serverQueue.size()` iterations empty the queue. -/
def LoadBalancer.advanceAll {P : PriorityQueue} (lb : LoadBalancer P) :
    LoadBalancer P × Int × Int :=
  let a := advanceLoop P (P.size lb.serverQueue)
    { serverQueue := lb.serverQueue, servers := [], activeServers := 0,
      inactiveServers := 0, output := [] }
  ({ lb with serverQueue := pushAll P a.serverQueue a.servers,
             serverOutput := lb.serverOutput ++ a.output },
    a.activeServers, a.inactiveServers)

/-- The body of the loop of `LoadBalancer::go` for one value of `currentTime`. The test
`(currentTime + 1) % 10 == 0` holds exactly when 10 divides `currentTime + 1`, whichever
sign the remainder of a negative dividend has. -/
def LoadBalancer.round {P : PriorityQueue} (rand : Nat → Nat) (lb : LoadBalancer P)
    (currentTime : Int) : Option (LoadBalancer P) :=
  let startingQueueSize : Int := lb.requestQueue.length
  let lb1 := (lb.addRandomRequests rand).write
    [LogLine.timeHeader currentTime startingQueueSize]
  match lb1.distributeRequests with
  | none => none
  | some (lb2, _) =>
    let adv := lb2.advanceAll
    let lb3 := adv.1
    let endingQueueSize : Int := lb3.requestQueue.length
    let lb4 := lb3.logCycleInfo currentTime startingQueueSize endingQueueSize
    let lb5 := lb4.write [LogLine.activeServers adv.2.1 adv.2.2]
    some (if (currentTime + 1) % 10 = 0 then lb5.resetTaskTimeRange else lb5)

/-- The loop of `LoadBalancer::go`: `rounds` iterations starting at `currentTime`. -/
def LoadBalancer.rounds {P : PriorityQueue} (rand : Nat → Nat) :
    Nat → Int → LoadBalancer P → Option (LoadBalancer P)
  | 0, _, lb => some lb
  | n + 1, currentTime, lb =>
    match lb.round rand currentTime with
    | none => none
    | some lb1 => LoadBalancer.rounds rand n (currentTime + 1) lb1

/-- A priority queue kept as a list: `push` appends, `top` is the first element of
least load. -/
def listQueue : PriorityQueue where
  Q := List WebServer
  toList := fun q => q
  top := listTop
  pop := listPop
  push := fun q w => q ++ [w]
  top_none := by
    intro q
    cases q with
    | nil => simp [listTop]
    | cons w ws =>
      simp only [listTop]
      cases listTop ws with
      | none => simp
      | some m => by_cases h : WebServer.gt w m = true <;> simp [h]
  top_greater := by
    intro q
    induction q with
    | nil => intro w h; simp [listTop] at h
    | cons x xs ih =>
      intro w h y hy
      simp only [listTop] at h
      cases hm : listTop xs with
      | none =>
        rw [hm] at h
        have hxs : xs = [] := by
          cases xs with
          | nil => rfl
          | cons a as =>
            simp only [listTop] at hm
            cases h2 : listTop as with
            | none => rw [h2] at hm; simp at hm
            | some m2 =>
              rw [h2] at hm
              by_cases h3 : WebServer.gt a m2 = true <;> simp [h3] at hm
        subst hxs
        simp at h hy
        subst h; subst hy
        simp [WebServer.gt]
      | some m =>
        rw [hm] at h
        have hmin := ih m hm
        by_cases hg : WebServer.gt x m = true
        · simp [hg] at h
          subst h
          rcases List.mem_cons.mp hy with rfl | hy2
          · simp only [WebServer.gt, decide_eq_true_eq, decide_eq_false_iff_not] at hg ⊢
            omega
          · exact hmin y hy2
        · simp [hg] at h
          subst h
          rcases List.mem_cons.mp hy with rfl | hy2
          · simp [WebServer.gt]
          · have h1 := hmin y hy2
            simp only [WebServer.gt, decide_eq_true_eq, decide_eq_false_iff_not] at hg h1 ⊢
            omega
  pop_perm := by
    intro q
    induction q with
    | nil => intro w h; simp [listTop] at h
    | cons x xs ih =>
      intro w h
      simp only [listTop] at h
      simp only [listPop]
      cases hm : listTop xs with
      | none =>
        rw [hm] at h
        have hxs : xs = [] := by
          cases xs with
          | nil => rfl
          | cons a as =>
            simp only [listTop] at hm
            cases h2 : listTop as with
            | none => rw [h2] at hm; simp at hm
            | some m2 =>
              rw [h2] at hm
              by_cases h3 : WebServer.gt a m2 = true <;> simp [h3] at hm
        subst hxs
        simp at h
        subst h
        simp
      | some m =>
        rw [hm] at h
        by_cases hg : WebServer.gt x m = true
        · simp [hg] at h
          subst h
          simp only [hg, if_true]
          exact ((ih _ hm).cons x).trans (List.Perm.swap _ _ _)
        · simp [hg] at h
          subst h
          simp [hg]
  push_perm := by
    intro q w
    simp

/-- Number of requests that arrive in a round: the growth of `requestQueue` in
`addRandomRequests`. -/
def LoadBalancer.arrivals {P : PriorityQueue} (rand : Nat → Nat) (lb : LoadBalancer P) : Nat :=
  (lb.addRandomRequests rand).requestQueue.length - lb.requestQueue.length

/-! ## Data of the worked examples -/

/-- A request with 3 units of work. -/
def jobA : Request := ⟨"192.168.0.1", "10.0.0.1", 3, "UNKNOWN"⟩

/-- A request with 1 unit of work. -/
def jobB : Request := ⟨"192.168.0.2", "10.0.0.2", 1, "UNKNOWN"⟩

/-- A request with 5 units of work. -/
def jobC : Request := ⟨"192.168.0.3", "10.0.0.3", 5, "UNKNOWN"⟩

/-- A load balancer over `listQueue`, as the constructor makes it for a run of 10 rounds
from time 0 with an open log file. -/
def exampleBalancer (servers : List WebServer) (requests : List Request) :
    LoadBalancer listQueue :=
  LoadBalancer.init listQueue servers requests 0 10 true

/-- A pool of two servers: server 0 of capacity 1 holds `jobC`, server 1 of capacity 1
is idle. -/
def examplePool : List WebServer :=
  [⟨0, 5, [jobC], 1⟩, WebServer.init 1 1]

/-- The content of the pool after an offer: the server the request was offered to, with
the request added when it was assigned, and the other servers of the pool. -/
def Offer.poolAfter (o : Offer) : List WebServer :=
  (if o.assigned then (o.topServer.addRequest o.req).1 else o.topServer) ::
    o.pool.erase o.topServer

/-- A request whose `processingTime` is the largest `int`. -/
def jobMax : Request := ⟨"192.168.0.5", "10.0.0.5", 2147483647, "UNKNOWN"⟩

/-- Three idle servers of capacity 2. -/
def idlePool : List WebServer :=
  [WebServer.init 0 2, WebServer.init 1 2, WebServer.init 2 2]

/-- One server of capacity 1 that holds `jobC`. -/
def fullPool : List WebServer := [⟨0, 5, [jobC], 1⟩]

/-- Server 0 of capacity 1 holds `jobB` (load 1) and is full; server 1 of capacity 2 holds
`jobC` (load 5) and has a free slot. -/
def outbidPool : List WebServer := [⟨0, 1, [jobB], 1⟩, ⟨1, 5, [jobC], 2⟩]

/-- An idle server: empty queue, load 0, and a capacity that is at least 1 (and an `int`). -/
def WebServer.Idle (w : WebServer) : Prop :=
  w.jobQueue = [] ∧ w.currentLoad = 0 ∧ 1 ≤ w.maxQueueSize ∧ w.maxQueueSize ≤ intMax

instance (w : WebServer) : Decidable w.Idle :=
  inferInstanceAs (Decidable
    (w.jobQueue = [] ∧ w.currentLoad = 0 ∧ 1 ≤ w.maxQueueSize ∧ w.maxQueueSize ≤ intMax))

/-! ## Arithmetic of `int`: sums inside the range -/

theorem wrapInt_of_inRange (v : Int) (h1 : intMin ≤ v) (h2 : v ≤ intMax) : wrapInt v = v := by
  unfold wrapInt
  unfold intMin at h1
  unfold intMax at h2
  omega

theorem intAdd_of_inRange (a b : Int) (h1 : intMin ≤ a + b) (h2 : a + b ≤ intMax) :
    intAdd a b = a + b := by
  unfold intAdd
  split
  · exact wrapInt_of_inRange _ h1 h2
  · rfl

theorem intAdd_zero_left (b : Int) : intAdd 0 b = b := by
  unfold intAdd
  split
  · rename_i h
    rw [zero_add]
    exact wrapInt_of_inRange b h.2.2.1 h.2.2.2
  · exact zero_add b

/-! ## Workers: auxiliary facts -/

theorem toSizeT_le_self (c : Int) (h : 0 ≤ c) : (toSizeT c : Int) ≤ c := by
  unfold toSizeT
  omega

theorem toSizeT_of_lt (c : Int) (h : 0 ≤ c) (h2 : c < 2 ^ 64) : (toSizeT c : Int) = c := by
  unfold toSizeT
  omega

theorem canAcceptRequest_iff (s : WebServer) :
    s.canAcceptRequest = true ↔ s.jobQueue.length < toSizeT s.maxQueueSize := by
  simp [WebServer.canAcceptRequest]

theorem canAcceptRequest_iff_of_nonneg (s : WebServer) (h : 0 ≤ s.maxQueueSize)
    (h2 : s.maxQueueSize < 2 ^ 64) :
    s.canAcceptRequest = true ↔ (s.jobQueue.length : Int) < s.maxQueueSize := by
  rw [canAcceptRequest_iff]
  have := toSizeT_of_lt s.maxQueueSize h h2
  omega

theorem addRequest_fst_of_accept (s : WebServer) (req : Request)
    (h : s.canAcceptRequest = true) :
    (s.addRequest req).1 =
      { s with jobQueue := s.jobQueue ++ [req],
               currentLoad := intAdd s.currentLoad req.processingTime } := by
  simp [WebServer.addRequest, h]

theorem addRequest_fst_of_full (s : WebServer) (req : Request)
    (h : s.canAcceptRequest = false) : (s.addRequest req).1 = s := by
  simp [WebServer.addRequest, h]

theorem processJobs_nil (s : WebServer) (h : s.jobQueue = []) : s.processJobs = (s, []) := by
  unfold WebServer.processJobs
  rw [h]

theorem processJobs_front_gt_one (s : WebServer) (job : Request) (rest : List Request)
    (h : s.jobQueue = job :: rest) (hk : 1 < job.processingTime) :
    s.processJobs.1.jobQueue =
      { job with processingTime := job.processingTime - 1 } :: rest := by
  unfold WebServer.processJobs
  rw [h]
  have h1 : job.processingTime > 0 := by omega
  have h2 : ¬ (job.processingTime - 1 ≤ 0) := by omega
  simp [h1, h2]

theorem processJobs_front_le_one (s : WebServer) (job : Request) (rest : List Request)
    (h : s.jobQueue = job :: rest) (hk : job.processingTime ≤ 1) :
    s.processJobs.1.jobQueue = rest := by
  unfold WebServer.processJobs
  rw [h]
  by_cases h1 : job.processingTime > 0
  · have h2 : job.processingTime - 1 ≤ 0 := by omega
    simp [h1, h2]
  · have h2 : job.processingTime ≤ 0 := by omega
    simp [h1, h2]

theorem processJobs_maxQueueSize (s : WebServer) :
    s.processJobs.1.maxQueueSize = s.maxQueueSize := by
  unfold WebServer.processJobs
  split
  · rfl
  · dsimp only
    split <;> split <;> rfl

theorem processJobs_id (s : WebServer) : s.processJobs.1.id = s.id := by
  unfold WebServer.processJobs
  split
  · rfl
  · dsimp only
    split <;> split <;> rfl

theorem processJobs_length_le (s : WebServer) :
    s.processJobs.1.jobQueue.length ≤ s.jobQueue.length := by
  cases hq : s.jobQueue with
  | nil => rw [processJobs_nil s hq, hq]
  | cons job rest =>
    by_cases hk : 1 < job.processingTime
    · rw [processJobs_front_gt_one s job rest hq hk]
      simp
    · rw [processJobs_front_le_one s job rest hq (by omega)]
      simp

theorem addRequest_maxQueueSize (s : WebServer) (req : Request) :
    (s.addRequest req).1.maxQueueSize = s.maxQueueSize := by
  unfold WebServer.addRequest
  split <;> rfl

theorem addRequest_id (s : WebServer) (req : Request) :
    (s.addRequest req).1.id = s.id := by
  unfold WebServer.addRequest
  split <;> rfl

theorem bounded_init (serverID c : Int) (h : 0 ≤ c) : (WebServer.init serverID c).Bounded := by
  simp [WebServer.Bounded, WebServer.init, h]

theorem bounded_addRequest (s : WebServer) (req : Request) (h : s.Bounded) :
    (s.addRequest req).1.Bounded := by
  unfold WebServer.Bounded at *
  by_cases hc : s.canAcceptRequest = true
  · rw [addRequest_fst_of_accept s req hc]
    have h1 := (canAcceptRequest_iff s).mp hc
    have h2 := toSizeT_le_self s.maxQueueSize (by omega)
    simp only [List.length_append, List.length_singleton]
    omega
  · rw [addRequest_fst_of_full s req (by simpa using hc)]
    exact h

theorem bounded_processJobs (s : WebServer) (h : s.Bounded) : s.processJobs.1.Bounded := by
  unfold WebServer.Bounded at *
  rw [processJobs_maxQueueSize]
  have := processJobs_length_le s
  omega

theorem bounded_step (s : WebServer) (op : ServerOp) (h : s.Bounded) : (s.step op).Bounded := by
  cases op with
  | addRequest req => exact bounded_addRequest s req h
  | processJobs => exact bounded_processJobs s h

theorem bounded_run (ops : List ServerOp) :
    ∀ s : WebServer, s.Bounded → (s.run ops).Bounded := by
  induction ops with
  | nil => intro s h; exact h
  | cons op ops ih =>
    intro s h
    exact ih (s.step op) (bounded_step s op h)

/-! ## Workers: the claims about `addRequest`, `canAcceptRequest` and `processJobs` -/

/-- C3 as stated fails when the sum leaves the range of `int`: a worker of capacity 2 that
was given `jobMax` has load 2147483647 and can accept; given `jobMax` again its load is
`-2`, not 2147483647 + 2147483647. -/
theorem addRequest_load_overflows :
    ((WebServer.init 0 2).addRequest jobMax).1 = ⟨0, 2147483647, [jobMax], 2⟩ ∧
    (⟨0, 2147483647, [jobMax], 2⟩ : WebServer).canAcceptRequest = true ∧
    ((⟨0, 2147483647, [jobMax], 2⟩ : WebServer).addRequest jobMax).1.currentLoad = -2 ∧
    (⟨0, 2147483647, [jobMax], 2⟩ : WebServer).currentLoad + jobMax.processingTime =
      4294967294 := by
  decide

/-- C3, amended: for a worker that can accept (`canAcceptRequest` true), `addRequest`
appends the request at the back of the queue, leaves `id` and `maxQueueSize` as they were,
writes no line, and sets `currentLoad` to the `int` sum of the old load and the
`processingTime` of the request: the old load plus `processingTime` whenever that sum is
in the range of `int`. -/
theorem addRequest_appends (s : WebServer) (req : Request)
    (h : s.canAcceptRequest = true) :
    (s.addRequest req).1.jobQueue = s.jobQueue ++ [req] ∧
    (s.addRequest req).1.currentLoad = intAdd s.currentLoad req.processingTime ∧
    (intMin ≤ s.currentLoad + req.processingTime →
      s.currentLoad + req.processingTime ≤ intMax →
      (s.addRequest req).1.currentLoad = s.currentLoad + req.processingTime) ∧
    (s.addRequest req).1.id = s.id ∧
    (s.addRequest req).1.maxQueueSize = s.maxQueueSize ∧
    (s.addRequest req).2 = [] := by
  rw [addRequest_fst_of_accept s req h]
  refine ⟨rfl, rfl, fun h1 h2 => intAdd_of_inRange _ _ h1 h2, rfl, rfl, ?_⟩
  simp [WebServer.addRequest, h]

theorem addRequest_appends_witness :
    (⟨7, 3, [jobA], 2⟩ : WebServer).canAcceptRequest = true ∧
    ((⟨7, 3, [jobA], 2⟩ : WebServer).addRequest jobC).1 = ⟨7, 8, [jobA, jobC], 2⟩ ∧
    ((⟨7, 3, [jobA], 2⟩ : WebServer).addRequest jobC).1.currentLoad =
      (⟨7, 3, [jobA], 2⟩ : WebServer).currentLoad + jobC.processingTime :=
  ⟨by decide, by decide,
   (addRequest_appends ⟨7, 3, [jobA], 2⟩ jobC (by decide)).2.2.1 (by decide) (by decide)⟩

/-- C4: for a worker that cannot accept (`canAcceptRequest` false), `addRequest` returns
normally, leaves the whole worker (queue, load, id, capacity) as it was, and the only effect
is the line reporting the rejection. -/
theorem addRequest_full_unchanged (s : WebServer) (req : Request)
    (h : s.canAcceptRequest = false) :
    (s.addRequest req).1 = s ∧
    (s.addRequest req).2 = [LogLine.rejected s.id req.ipIn] := by
  simp [WebServer.addRequest, h]

theorem addRequest_full_unchanged_witness :
    (⟨3, 5, [⟨"192.168.0.1", "10.0.0.1", 5, "UNKNOWN"⟩], 1⟩ : WebServer).canAcceptRequest
      = false ∧
    ((⟨3, 5, [⟨"192.168.0.1", "10.0.0.1", 5, "UNKNOWN"⟩], 1⟩ : WebServer).addRequest
      ⟨"192.168.0.2", "10.0.0.2", 9, "UNKNOWN"⟩).1 =
      ⟨3, 5, [⟨"192.168.0.1", "10.0.0.1", 5, "UNKNOWN"⟩], 1⟩ :=
  ⟨by decide,
   (addRequest_full_unchanged ⟨3, 5, [⟨"192.168.0.1", "10.0.0.1", 5, "UNKNOWN"⟩], 1⟩
      ⟨"192.168.0.2", "10.0.0.2", 9, "UNKNOWN"⟩ (by decide)).1⟩

/-- C5, at the failing input: a worker constructed with capacity `-1` and an empty queue
reports that it can accept a request although `0 < -1` is false; the request is then
queued, so that the queue is longer than the capacity. -/
theorem canAcceptRequest_negative_capacity :
    (WebServer.init 0 (-1)).canAcceptRequest = true ∧
    ¬ (((WebServer.init 0 (-1)).jobQueue.length : Int) < (WebServer.init 0 (-1)).maxQueueSize) ∧
    ((WebServer.init 0 (-1)).addRequest Request.default).1.jobQueue = [Request.default] := by
  decide

/-- C2 as stated fails for `k = 0`: a front job with `processingTime = 0` is still in the
queue after 0 calls of `processJobs`; it is the first call that removes it. -/
theorem front_job_zero_needs_one_tick :
    (⟨0, 0, [⟨"192.168.0.1", "10.0.0.1", 0, "UNKNOWN"⟩], 1⟩ : WebServer).jobQueue.head?.map
      Request.processingTime = some 0 ∧
    (WebServer.ticks 0 ⟨0, 0, [⟨"192.168.0.1", "10.0.0.1", 0, "UNKNOWN"⟩], 1⟩).jobQueue =
      [⟨"192.168.0.1", "10.0.0.1", 0, "UNKNOWN"⟩] ∧
    (WebServer.ticks 1 ⟨0, 0, [⟨"192.168.0.1", "10.0.0.1", 0, "UNKNOWN"⟩], 1⟩).jobQueue = [] := by
  decide

/-- C2, amended: a front job with `processingTime = k` stays the front job (with `k - j`
left after `j` calls, the jobs behind it untouched) for every number `j` of calls of
`processJobs` smaller than `max k 1`, and the call number `max k 1` removes it: exactly `k`
calls for `k ≥ 1`, and one call for `k = 0`. -/
theorem front_job_completes (k : Nat) :
    ∀ (s : WebServer) (job : Request) (rest : List Request),
      s.jobQueue = job :: rest → job.processingTime = (k : Int) →
      (∀ j : Nat, j < max k 1 →
        (WebServer.ticks j s).jobQueue =
          { job with processingTime := (k : Int) - (j : Int) } :: rest) ∧
      (WebServer.ticks (max k 1) s).jobQueue = rest := by
  induction k with
  | zero =>
    intro s job rest hq hk
    constructor
    · intro j hj
      have hj0 : j = 0 := by omega
      subst hj0
      simp only [WebServer.ticks, hq]
      cases job
      simp_all
    · show (WebServer.ticks 0 s.processJobs.1).jobQueue = rest
      simp only [WebServer.ticks]
      exact processJobs_front_le_one s job rest hq (by omega)
  | succ n ih =>
    intro s job rest hq hk
    by_cases hn : n = 0
    · subst hn
      constructor
      · intro j hj
        have hj0 : j = 0 := by omega
        subst hj0
        simp only [WebServer.ticks, hq]
        cases job
        simp_all
      · show (WebServer.ticks 0 s.processJobs.1).jobQueue = rest
        simp only [WebServer.ticks]
        exact processJobs_front_le_one s job rest hq (by omega)
    · have hstep := processJobs_front_gt_one s job rest hq (by omega)
      have hmax : max (n + 1) 1 = max n 1 + 1 := by omega
      have ih2 := ih s.processJobs.1 { job with processingTime := job.processingTime - 1 }
        rest hstep (by simp only; omega)
      constructor
      · intro j hj
        cases j with
        | zero =>
          simp only [WebServer.ticks, hq]
          cases job
          simp_all
        | succ i =>
          simp only [WebServer.ticks]
          rw [ih2.1 i (by omega)]
          simp only [List.cons.injEq, and_true]
          congr 1
          push_cast
          omega
      · rw [hmax]
        simp only [WebServer.ticks]
        exact ih2.2

theorem front_job_completes_witness :
    (WebServer.ticks 2 ⟨0, 3, [⟨"192.168.0.1", "10.0.0.1", 3, "UNKNOWN"⟩,
      ⟨"192.168.0.2", "10.0.0.2", 4, "UNKNOWN"⟩], 2⟩).jobQueue =
      [⟨"192.168.0.1", "10.0.0.1", 1, "UNKNOWN"⟩, ⟨"192.168.0.2", "10.0.0.2", 4, "UNKNOWN"⟩] ∧
    (WebServer.ticks 3 ⟨0, 3, [⟨"192.168.0.1", "10.0.0.1", 3, "UNKNOWN"⟩,
      ⟨"192.168.0.2", "10.0.0.2", 4, "UNKNOWN"⟩], 2⟩).jobQueue =
      [⟨"192.168.0.2", "10.0.0.2", 4, "UNKNOWN"⟩] := by
  have h := front_job_completes 3 ⟨0, 3, [⟨"192.168.0.1", "10.0.0.1", 3, "UNKNOWN"⟩,
      ⟨"192.168.0.2", "10.0.0.2", 4, "UNKNOWN"⟩], 2⟩ ⟨"192.168.0.1", "10.0.0.1", 3, "UNKNOWN"⟩
      [⟨"192.168.0.2", "10.0.0.2", 4, "UNKNOWN"⟩] rfl rfl
  exact ⟨h.1 2 (by decide), h.2⟩

/-! ## Workers: load accounting -/

theorem queuedWork_append (a b : List Request) :
    queuedWork (a ++ b) = queuedWork a + queuedWork b := by
  simp [queuedWork]

theorem queuedWork_cons (j : Request) (rest : List Request) :
    queuedWork (j :: rest) = j.processingTime + queuedWork rest := by
  simp [queuedWork]

theorem queuedWork_nonneg (jobs : List Request) (h : ∀ j ∈ jobs, 0 ≤ j.processingTime) :
    0 ≤ queuedWork jobs := by
  induction jobs with
  | nil => simp [queuedWork]
  | cons j rest ih =>
    rw [queuedWork_cons]
    have h1 := h j (List.mem_cons_self _ _)
    have h2 := ih (fun x hx => h x (List.mem_cons_of_mem _ hx))
    omega

theorem accounted_addRequest (s : WebServer) (req : Request)
    (hload : s.currentLoad = queuedWork s.jobQueue)
    (hjobs : ∀ j ∈ s.jobQueue, 0 ≤ j.processingTime) (hreq : 0 ≤ req.processingTime)
    (hmax : queuedWork (s.addRequest req).1.jobQueue ≤ intMax) :
    (s.addRequest req).1.currentLoad = queuedWork (s.addRequest req).1.jobQueue ∧
    ∀ j ∈ (s.addRequest req).1.jobQueue, 0 ≤ j.processingTime := by
  by_cases hc : s.canAcceptRequest = true
  · rw [addRequest_fst_of_accept s req hc] at hmax ⊢
    have hsum : queuedWork (s.jobQueue ++ [req]) = s.currentLoad + req.processingTime := by
      rw [queuedWork_append, hload]
      simp [queuedWork]
    have hnn := queuedWork_nonneg s.jobQueue hjobs
    refine ⟨?_, ?_⟩
    · show intAdd s.currentLoad req.processingTime = queuedWork (s.jobQueue ++ [req])
      rw [hsum]
      refine intAdd_of_inRange _ _ ?_ ?_
      · unfold intMin
        omega
      · rw [← hsum]
        exact hmax
    · intro j hj
      rcases List.mem_append.mp hj with h1 | h1
      · exact hjobs j h1
      · rw [List.mem_singleton.mp h1]
        exact hreq
  · rw [addRequest_fst_of_full s req (by simpa using hc)]
    exact ⟨hload, hjobs⟩

theorem accounted_processJobs (s : WebServer)
    (hload : s.currentLoad = queuedWork s.jobQueue)
    (hjobs : ∀ j ∈ s.jobQueue, 0 ≤ j.processingTime) :
    s.processJobs.1.currentLoad = queuedWork s.processJobs.1.jobQueue ∧
    ∀ j ∈ s.processJobs.1.jobQueue, 0 ≤ j.processingTime := by
  cases hq : s.jobQueue with
  | nil =>
    rw [processJobs_nil s hq]
    rw [hq] at hload hjobs
    exact ⟨by rw [hload, hq], by rw [hq]; exact hjobs⟩
  | cons job rest =>
    rw [hq] at hload hjobs
    rw [queuedWork_cons] at hload
    have hjob := hjobs job (List.mem_cons_self _ _)
    have hrest : ∀ j ∈ rest, 0 ≤ j.processingTime :=
      fun j hj => hjobs j (List.mem_cons_of_mem _ hj)
    have hsum := queuedWork_nonneg rest hrest
    unfold WebServer.processJobs
    rw [hq]
    by_cases h0 : job.processingTime > 0
    · by_cases h1 : job.processingTime - 1 ≤ 0
      · have hclamp : ¬ (s.currentLoad - 1 < 0) := by omega
        simp only [h0, h1, hclamp, if_true, if_false]
        exact ⟨by omega, hrest⟩
      · have hclamp : ¬ (s.currentLoad - 1 < 0) := by omega
        simp only [h0, h1, hclamp, if_true, if_false]
        refine ⟨by rw [queuedWork_cons]; simp only; omega, ?_⟩
        intro j hj
        rcases List.mem_cons.mp hj with rfl | h2
        · simp only; omega
        · exact hrest j h2
    · have h1 : job.processingTime ≤ 0 := by omega
      simp only [h0, h1, if_true, if_false]
      exact ⟨by omega, hrest⟩

theorem accounted_run (ops : List ServerOp) :
    ∀ s : WebServer, (∀ req, ServerOp.addRequest req ∈ ops → 0 ≤ req.processingTime) →
      (∀ k : Nat, queuedWork (s.run (ops.take k)).jobQueue ≤ intMax) →
      s.currentLoad = queuedWork s.jobQueue → (∀ j ∈ s.jobQueue, 0 ≤ j.processingTime) →
      (s.run ops).currentLoad = queuedWork (s.run ops).jobQueue ∧
      ∀ j ∈ (s.run ops).jobQueue, 0 ≤ j.processingTime := by
  induction ops with
  | nil => intro s _ _ h1 h2; exact ⟨h1, h2⟩
  | cons op ops ih =>
    intro s hops hmax h1 h2
    have hrest : ∀ req, ServerOp.addRequest req ∈ ops → 0 ≤ req.processingTime :=
      fun req hr => hops req (List.mem_cons_of_mem _ hr)
    have hmax2 : ∀ k : Nat, queuedWork ((s.step op).run (ops.take k)).jobQueue ≤ intMax :=
      fun k => hmax (k + 1)
    show ((s.step op).run ops).currentLoad = queuedWork ((s.step op).run ops).jobQueue ∧
      ∀ j ∈ ((s.step op).run ops).jobQueue, 0 ≤ j.processingTime
    cases op with
    | addRequest req =>
      have hs := accounted_addRequest s req h1 h2 (hops req (List.mem_cons_self _ _))
        (hmax 1)
      exact ih _ hrest hmax2 hs.1 hs.2
    | processJobs =>
      have hs := accounted_processJobs s h1 h2
      exact ih _ hrest hmax2 hs.1 hs.2

/-- C9 as stated fails when the queued work leaves the range of `int`: a worker of
capacity 2 that was given `jobMax` twice holds two requests of non-negative
`processingTime` with sum 4294967294 and has load `-2`. -/
theorem load_overflows_below_zero :
    ((WebServer.init 0 2).run [ServerOp.addRequest jobMax, ServerOp.addRequest jobMax]) =
      ⟨0, -2, [jobMax, jobMax], 2⟩ ∧
    queuedWork [jobMax, jobMax] = 4294967294 ∧
    0 ≤ jobMax.processingTime := by
  decide

/-- C9, amended: a worker constructed by `WebServer(serverID, maxQueueSize)` (empty queue,
load 0) that is only given requests of non-negative `processingTime` has, after every
finite sequence of `addRequest` and `processJobs` calls during which the sum of
`processingTime` over the queued requests never exceeds the largest `int`, a
`currentLoad` equal to that sum, hence non-negative. -/
theorem load_eq_queuedWork (serverID maxQueueSize : Int) (ops : List ServerOp)
    (h : ∀ req, ServerOp.addRequest req ∈ ops → 0 ≤ req.processingTime)
    (hmax : ∀ k : Nat,
      queuedWork ((WebServer.init serverID maxQueueSize).run (ops.take k)).jobQueue ≤ intMax) :
    ((WebServer.init serverID maxQueueSize).run ops).currentLoad =
        queuedWork ((WebServer.init serverID maxQueueSize).run ops).jobQueue ∧
    0 ≤ ((WebServer.init serverID maxQueueSize).run ops).currentLoad := by
  have hk := accounted_run ops (WebServer.init serverID maxQueueSize) h hmax
    (by simp [WebServer.init, queuedWork]) (by simp [WebServer.init])
  refine ⟨hk.1, ?_⟩
  rw [hk.1]
  exact queuedWork_nonneg _ hk.2

theorem load_eq_queuedWork_witness :
    ((WebServer.init 1 2).run
        [ServerOp.addRequest jobA, ServerOp.addRequest jobB, ServerOp.processJobs]) =
      ⟨1, 3, [{ jobA with processingTime := 2 }, jobB], 2⟩ ∧
    ((WebServer.init 1 2).run
        [ServerOp.addRequest jobA, ServerOp.addRequest jobB, ServerOp.processJobs]).currentLoad =
      queuedWork ((WebServer.init 1 2).run
        [ServerOp.addRequest jobA, ServerOp.addRequest jobB,
         ServerOp.processJobs]).jobQueue ∧
    0 ≤ ((WebServer.init 1 2).run
        [ServerOp.addRequest jobA, ServerOp.addRequest jobB,
         ServerOp.processJobs]).currentLoad :=
  ⟨by decide,
   load_eq_queuedWork 1 2
    [ServerOp.addRequest jobA, ServerOp.addRequest jobB, ServerOp.processJobs]
    (by
      intro req hreq
      simp only [List.mem_cons, ServerOp.addRequest.injEq, List.mem_singleton, reduceCtorEq,
        List.not_mem_nil, or_false] at hreq
      rcases hreq with rfl | rfl <;> decide)
    (by
      intro k
      match k with
      | 0 => decide
      | 1 => decide
      | 2 => decide
      | k + 3 =>
        simp only [List.take_succ_cons, List.take_nil]
        decide)⟩

/-! ## The distribution loop -/

theorem top_mem (P : PriorityQueue) (q : P.Q) (t : WebServer) (ht : P.top q = some t) :
    t ∈ P.toList q :=
  (P.pop_perm q t ht).symm.subset (List.mem_cons_self _ _)

theorem top_isSome (P : PriorityQueue) (q : P.Q) (h : P.toList q ≠ []) :
    ∃ t, P.top q = some t := by
  cases ht : P.top q with
  | none => exact absurd ((P.top_none q).mp ht) h
  | some t => exact ⟨t, rfl⟩

theorem top_load_le (P : PriorityQueue) (q : P.Q) (t : WebServer) (ht : P.top q = some t)
    (w : WebServer) (hw : w ∈ P.toList q) : t.currentLoad ≤ w.currentLoad := by
  have h := P.top_greater q t ht w hw
  simp only [WebServer.gt, decide_eq_false_iff_not] at h
  omega

theorem push_ne_nil (P : PriorityQueue) (q : P.Q) (w : WebServer) :
    P.toList (P.push q w) ≠ [] := by
  intro h
  have hp := P.push_perm q w
  rw [h] at hp
  exact absurd hp.symm (by simp)

theorem distributeLoop_accept (P : PriorityQueue) (req : Request) (rq : List Request)
    (q : P.Q) (temp : List Request) (offers : List Offer) (t : WebServer)
    (ht : P.top q = some t) (hc : t.canAcceptRequest = true) :
    distributeLoop P (req :: rq) q temp offers =
      distributeLoop P rq (P.push (P.pop q) (t.addRequest req).1) temp
        (offers ++ [⟨req, P.toList q, t, true, []⟩]) := by
  simp [distributeLoop, ht, hc, WebServer.addRequest]

theorem distributeLoop_reject (P : PriorityQueue) (req : Request) (rq : List Request)
    (q : P.Q) (temp : List Request) (offers : List Offer) (t : WebServer)
    (ht : P.top q = some t) (hc : t.canAcceptRequest = false) :
    distributeLoop P (req :: rq) q temp offers =
      distributeLoop P rq (P.push (P.pop q) t) (temp ++ [req])
        (offers ++ [⟨req, P.toList q, t, false, []⟩]) := by
  simp [distributeLoop, ht, hc]

theorem distributeLoop_empty_pool (P : PriorityQueue) (req : Request) (rq : List Request)
    (q : P.Q) (temp : List Request) (offers : List Offer) (h : P.toList q = []) :
    distributeLoop P (req :: rq) q temp offers = none := by
  simp [distributeLoop, (P.top_none q).mpr h]

theorem distributeLoop_isSome (P : PriorityQueue) (rq : List Request) :
    ∀ (q : P.Q) (temp : List Request) (offers : List Offer), P.toList q ≠ [] →
      ∃ r, distributeLoop P rq q temp offers = some r := by
  induction rq with
  | nil => intro q temp offers _; exact ⟨_, rfl⟩
  | cons req rq ih =>
    intro q temp offers h
    obtain ⟨t, ht⟩ := top_isSome P q h
    by_cases hc : t.canAcceptRequest = true
    · rw [distributeLoop_accept P req rq q temp offers t ht hc]
      exact ih _ _ _ (push_ne_nil P _ _)
    · rw [distributeLoop_reject P req rq q temp offers t ht (by simpa using hc)]
      exact ih _ _ _ (push_ne_nil P _ _)

theorem refillLoop_eq (temp : List Request) :
    ∀ requestQueue : List Request, refillLoop temp requestQueue = requestQueue ++ temp := by
  induction temp with
  | nil => intro rq; simp [refillLoop]
  | cons r temp ih => intro rq; simp [refillLoop, ih]

theorem distributeLoop_offers (P : PriorityQueue) (rq : List Request) :
    ∀ (q : P.Q) (temp : List Request) (offers : List Offer)
      (r : P.Q × List Request × List Offer),
      distributeLoop P rq q temp offers = some r →
      ∃ made : List Offer, r.2.2 = offers ++ made ∧ made.map Offer.req = rq ∧
        (∀ o ∈ made, o.topServer ∈ o.pool ∧
          (∀ w ∈ o.pool, o.topServer.currentLoad ≤ w.currentLoad) ∧
          o.assigned = o.topServer.canAcceptRequest ∧ o.output = []) ∧
        (∀ o, made.head? = some o → o.pool = P.toList q) := by
  induction rq with
  | nil =>
    intro q temp offers r h
    simp only [distributeLoop, Option.some.injEq] at h
    subst h
    exact ⟨[], by simp⟩
  | cons req rq ih =>
    intro q temp offers r h
    cases ht : P.top q with
    | none =>
      rw [distributeLoop_empty_pool P req rq q temp offers ((P.top_none q).mp ht)] at h
      exact absurd h (by simp)
    | some t =>
      by_cases hc : t.canAcceptRequest = true
      · rw [distributeLoop_accept P req rq q temp offers t ht hc] at h
        obtain ⟨made, hm, hreq, hall, _⟩ := ih _ _ _ r h
        refine ⟨⟨req, P.toList q, t, true, []⟩ :: made, by rw [hm]; simp, by simp [hreq], ?_, ?_⟩
        · intro o ho
          rcases List.mem_cons.mp ho with rfl | ho2
          · exact ⟨top_mem P q t ht, top_load_le P q t ht, hc.symm, rfl⟩
          · exact hall o ho2
        · intro o ho
          simp only [List.head?_cons, Option.some.injEq] at ho
          subst ho
          rfl
      · have hc2 : t.canAcceptRequest = false := by simpa using hc
        rw [distributeLoop_reject P req rq q temp offers t ht hc2] at h
        obtain ⟨made, hm, hreq, hall, _⟩ := ih _ _ _ r h
        refine ⟨⟨req, P.toList q, t, false, []⟩ :: made, by rw [hm]; simp, by simp [hreq], ?_, ?_⟩
        · intro o ho
          rcases List.mem_cons.mp ho with rfl | ho2
          · exact ⟨top_mem P q t ht, top_load_le P q t ht, hc2.symm, rfl⟩
          · exact hall o ho2
        · intro o ho
          simp only [List.head?_cons, Option.some.injEq] at ho
          subst ho
          rfl

/-! ## Conservation of requests in the distribution loop -/

theorem withAdded_nil (w : WebServer) : w.withAdded [] = w := by
  simp [WebServer.withAdded, queuedWork]

theorem addRequest_withAdded (t : WebServer) (req : Request) (hc : t.canAcceptRequest = true) :
    (t.addRequest req).1 = t.withAdded [req] := by
  rw [addRequest_fst_of_accept t req hc]
  simp [WebServer.withAdded, queuedWork]

theorem withAdded_withAdded (w : WebServer) (a b : List Request) :
    (w.withAdded a).withAdded b = w.withAdded (a ++ b) := by
  simp [WebServer.withAdded, queuedWork_append, add_assoc]

theorem distributeLoop_adds (P : PriorityQueue) (rq : List Request) :
    ∀ (q : P.Q) (temp : List Request) (offers : List Offer)
      (r : P.Q × List Request × List Offer),
      distributeLoop P rq q temp offers = some r →
      ∃ adds : List (WebServer × List Request),
        (P.toList q).Perm (adds.map Prod.fst) ∧
        (P.toList r.1).Perm (adds.map fun a => a.1.withAdded a.2) ∧
        (temp ++ rq).Perm (r.2.1 ++ adds.flatMap Prod.snd) := by
  induction rq with
  | nil =>
    intro q temp offers r h
    simp only [distributeLoop, Option.some.injEq] at h
    subst h
    refine ⟨(P.toList q).map fun w => (w, []), ?_, ?_, ?_⟩
    · simp [List.map_map, Function.comp_def]
    · simp [List.map_map, Function.comp_def, withAdded_nil]
    · have : ((P.toList q).map fun w => ((w, []) : WebServer × List Request)).flatMap
          Prod.snd = [] := by
        induction P.toList q with
        | nil => rfl
        | cons a l ih => simp [ih]
      simp [this]
  | cons req rq ih =>
    intro q temp offers r h
    cases ht : P.top q with
    | none =>
      rw [distributeLoop_empty_pool P req rq q temp offers ((P.top_none q).mp ht)] at h
      exact absurd h (by simp)
    | some t =>
      have hpop := P.pop_perm q t ht
      by_cases hc : t.canAcceptRequest = true
      · rw [distributeLoop_accept P req rq q temp offers t ht hc] at h
        obtain ⟨adds2, h1, h2, h3⟩ := ih _ _ _ r h
        have hpush := P.push_perm (P.pop q) (t.addRequest req).1
        rw [addRequest_withAdded t req hc] at hpush h1
        have hmem : t.withAdded [req] ∈ adds2.map Prod.fst :=
          (hpush.symm.trans h1).subset (List.mem_cons_self _ _)
        obtain ⟨a, ha, hfst⟩ := List.mem_map.mp hmem
        obtain ⟨s, u, hsu⟩ := List.append_of_mem ha
        have hperm : adds2.Perm (a :: (s ++ u)) := by
          rw [hsu]
          exact List.perm_middle
        refine ⟨(t, req :: a.2) :: (s ++ u), ?_, ?_, ?_⟩
        · have e1 : (t.withAdded [req] :: P.toList (P.pop q)).Perm
              (t.withAdded [req] :: (s ++ u).map Prod.fst) := by
            have := (hpush.symm.trans h1).trans (hperm.map Prod.fst)
            simpa [hfst] using this
          exact hpop.trans (e1.cons_inv.cons t)
        · have e2 := h2.trans (hperm.map fun a => a.1.withAdded a.2)
          simpa [hfst, withAdded_withAdded] using e2
        · have e3 : (adds2.flatMap Prod.snd).Perm (a.2 ++ (s ++ u).flatMap Prod.snd) := by
            have := hperm.flatMap_right Prod.snd
            simpa using this
          have e4 : (temp ++ req :: rq).Perm (req :: (temp ++ rq)) := List.perm_middle
          have e5 : (req :: (r.2.1 ++ (a.2 ++ (s ++ u).flatMap Prod.snd))).Perm
              (r.2.1 ++ req :: (a.2 ++ (s ++ u).flatMap Prod.snd)) := List.perm_middle.symm
          have e6 := (h3.trans (e3.append_left r.2.1)).cons req
          simpa using (e4.trans e6).trans e5
      · have hc2 : t.canAcceptRequest = false := by simpa using hc
        rw [distributeLoop_reject P req rq q temp offers t ht hc2] at h
        obtain ⟨adds2, h1, h2, h3⟩ := ih _ _ _ r h
        have hpush := P.push_perm (P.pop q) t
        refine ⟨adds2, (hpop.trans hpush.symm).trans h1, h2, ?_⟩
        simpa using h3

theorem totalQueued_perm (l₁ l₂ : List WebServer) (h : l₁.Perm l₂) :
    totalQueued l₁ = totalQueued l₂ := by
  unfold totalQueued
  exact (h.map _).sum_eq

theorem totalQueued_adds (adds : List (WebServer × List Request)) :
    totalQueued (adds.map fun a => a.1.withAdded a.2) =
      totalQueued (adds.map Prod.fst) + (adds.flatMap Prod.snd).length := by
  induction adds with
  | nil => simp [totalQueued]
  | cons a l ih =>
    simp only [totalQueued, List.map_cons, List.sum_cons, List.flatMap_cons,
      List.length_append] at ih ⊢
    simp only [WebServer.withAdded, List.length_append] at ih ⊢
    omega

/-- An invariant of single workers that `addRequest` keeps holds for every worker of the
pool after the distribution loop. -/
theorem distributeLoop_forall (P : PriorityQueue) (I : WebServer → Prop)
    (hadd : ∀ w req, I w → I (w.addRequest req).1) (rq : List Request) :
    ∀ (q : P.Q) (temp : List Request) (offers : List Offer)
      (r : P.Q × List Request × List Offer),
      distributeLoop P rq q temp offers = some r →
      (∀ w ∈ P.toList q, I w) → ∀ w ∈ P.toList r.1, I w := by
  induction rq with
  | nil =>
    intro q temp offers r h
    simp only [distributeLoop, Option.some.injEq] at h
    subst h
    exact fun hq => hq
  | cons req rq ih =>
    intro q temp offers r h hq
    cases ht : P.top q with
    | none =>
      rw [distributeLoop_empty_pool P req rq q temp offers ((P.top_none q).mp ht)] at h
      exact absurd h (by simp)
    | some t =>
      have hpop := P.pop_perm q t ht
      have hrest : ∀ w ∈ P.toList (P.pop q), I w :=
        fun w hw => hq w (hpop.symm.subset (List.mem_cons_of_mem _ hw))
      have ht2 : I t := hq t (top_mem P q t ht)
      by_cases hc : t.canAcceptRequest = true
      · rw [distributeLoop_accept P req rq q temp offers t ht hc] at h
        refine ih _ _ _ r h ?_
        intro w hw
        rcases List.mem_cons.mp ((P.push_perm _ _).subset hw) with rfl | hw2
        · exact hadd t req ht2
        · exact hrest w hw2
      · rw [distributeLoop_reject P req rq q temp offers t ht (by simpa using hc)] at h
        refine ih _ _ _ r h ?_
        intro w hw
        rcases List.mem_cons.mp ((P.push_perm _ _).subset hw) with rfl | hw2
        · exact ht2
        · exact hrest w hw2

theorem push_pop_perm (P : PriorityQueue) (q : P.Q) (t t' : WebServer)
    (ht : P.top q = some t) :
    (P.toList (P.push (P.pop q) t')).Perm (t' :: (P.toList q).erase t) := by
  have h1 := P.push_perm (P.pop q) t'
  have h2 : ((P.toList q).erase t).Perm (P.toList (P.pop q)) := by
    have := (P.pop_perm q t ht).erase t
    simpa using this
  exact h1.trans (h2.symm.cons t')

theorem distributeLoop_chain (P : PriorityQueue) (rq : List Request) :
    ∀ (q : P.Q) (temp : List Request) (offers : List Offer)
      (r : P.Q × List Request × List Offer),
      distributeLoop P rq q temp offers = some r →
      ∃ made : List Offer, r.2.2 = offers ++ made ∧
        List.Chain' (fun o₁ o₂ => o₂.pool.Perm o₁.poolAfter) made ∧
        (∀ o, made.head? = some o → o.pool = P.toList q) ∧
        (P.toList r.1).Perm
          (match made.getLast? with
            | none => P.toList q
            | some o => o.poolAfter) := by
  induction rq with
  | nil =>
    intro q temp offers r h
    simp only [distributeLoop, Option.some.injEq] at h
    subst h
    exact ⟨[], by simp, List.chain'_nil, by simp, List.Perm.refl _⟩
  | cons req rq ih =>
    intro q temp offers r h
    cases ht : P.top q with
    | none =>
      rw [distributeLoop_empty_pool P req rq q temp offers ((P.top_none q).mp ht)] at h
      exact absurd h (by simp)
    | some t =>
      have step : ∀ (t' : WebServer) (temp' : List Request) (o : Offer),
          o.pool = P.toList q → o.poolAfter = t' :: (P.toList q).erase t →
          distributeLoop P rq (P.push (P.pop q) t') temp' (offers ++ [o]) = some r →
          ∃ made : List Offer, r.2.2 = offers ++ made ∧
            List.Chain' (fun o₁ o₂ => o₂.pool.Perm o₁.poolAfter) made ∧
            (∀ o, made.head? = some o → o.pool = P.toList q) ∧
            (P.toList r.1).Perm
              (match made.getLast? with
                | none => P.toList q
                | some o => o.poolAfter) := by
        intro t' temp' o hpool hafter h'
        obtain ⟨made, hm, hchain, hhead, hlast⟩ := ih _ _ _ r h'
        have hq2 := push_pop_perm P q t t' ht
        rw [← hafter] at hq2
        refine ⟨o :: made, by rw [hm]; simp, ?_, ?_, ?_⟩
        · refine hchain.cons' ?_
          intro o₂ ho₂
          rw [hhead o₂ (by simpa using ho₂)]
          exact hq2
        · intro o' ho'
          simp only [List.head?_cons, Option.some.injEq] at ho'
          subst ho'
          exact hpool
        · cases made with
          | nil => exact hlast.trans hq2
          | cons m ms =>
            rw [List.getLast?_cons_cons]
            exact hlast
      by_cases hc : t.canAcceptRequest = true
      · rw [distributeLoop_accept P req rq q temp offers t ht hc] at h
        exact step (t.addRequest req).1 temp ⟨req, P.toList q, t, true, []⟩ rfl
          (by simp [Offer.poolAfter]) h
      · rw [distributeLoop_reject P req rq q temp offers t ht (by simpa using hc)] at h
        exact step t (temp ++ [req]) ⟨req, P.toList q, t, false, []⟩ rfl
          (by simp [Offer.poolAfter]) h

/-! ## `distributeRequests` -/

theorem distributeLoop_kept (P : PriorityQueue) (rq : List Request) :
    ∀ (q : P.Q) (temp : List Request) (offers : List Offer)
      (r : P.Q × List Request × List Offer),
      distributeLoop P rq q temp offers = some r →
      ∃ made : List Offer, r.2.2 = offers ++ made ∧ made.map Offer.req = rq ∧
        r.2.1 = temp ++ (made.filter fun o => !o.assigned).map Offer.req := by
  induction rq with
  | nil =>
    intro q temp offers r h
    simp only [distributeLoop, Option.some.injEq] at h
    subst h
    exact ⟨[], by simp⟩
  | cons req rq ih =>
    intro q temp offers r h
    cases ht : P.top q with
    | none =>
      rw [distributeLoop_empty_pool P req rq q temp offers ((P.top_none q).mp ht)] at h
      exact absurd h (by simp)
    | some t =>
      by_cases hc : t.canAcceptRequest = true
      · rw [distributeLoop_accept P req rq q temp offers t ht hc] at h
        obtain ⟨made, hm, hreq, hk⟩ := ih _ _ _ r h
        exact ⟨⟨req, P.toList q, t, true, []⟩ :: made, by rw [hm]; simp, by simp [hreq],
          by rw [hk]; simp⟩
      · rw [distributeLoop_reject P req rq q temp offers t ht (by simpa using hc)] at h
        obtain ⟨made, hm, hreq, hk⟩ := ih _ _ _ r h
        exact ⟨⟨req, P.toList q, t, false, []⟩ :: made, by rw [hm]; simp, by simp [hreq],
          by rw [hk]; simp⟩

theorem distributeRequests_some {P : PriorityQueue} (lb : LoadBalancer P)
    (lb' : LoadBalancer P) (offers : List Offer)
    (h : lb.distributeRequests = some (lb', offers)) :
    distributeLoop P lb.requestQueue lb.serverQueue [] [] =
      some (lb'.serverQueue, lb'.requestQueue, offers) := by
  unfold LoadBalancer.distributeRequests at h
  cases hl : distributeLoop P lb.requestQueue lb.serverQueue [] [] with
  | none => rw [hl] at h; exact absurd h (by simp)
  | some r =>
    obtain ⟨q, temp, made⟩ := r
    rw [hl] at h
    simp only [Option.some.injEq, Prod.mk.injEq] at h
    obtain ⟨h1, h2⟩ := h
    subst h1 h2
    simp [refillLoop_eq]

theorem distributeRequests_isSome {P : PriorityQueue} (lb : LoadBalancer P)
    (h : P.toList lb.serverQueue ≠ []) : ∃ r, lb.distributeRequests = some r := by
  obtain ⟨r, hr⟩ := distributeLoop_isSome P lb.requestQueue lb.serverQueue [] [] h
  unfold LoadBalancer.distributeRequests
  rw [hr]
  exact ⟨_, rfl⟩

theorem distributeRequests_isSome_iff {P : PriorityQueue} (lb : LoadBalancer P) :
    (∃ r, lb.distributeRequests = some r) ↔
      (P.toList lb.serverQueue ≠ [] ∨ lb.requestQueue = []) := by
  constructor
  · rintro ⟨⟨lb', offers⟩, hr⟩
    have hl := distributeRequests_some lb lb' offers hr
    cases hq : lb.requestQueue with
    | nil => exact Or.inr rfl
    | cons req rq =>
      left
      intro hnil
      rw [hq, distributeLoop_empty_pool P req rq _ _ _ hnil] at hl
      exact absurd hl (by simp)
  · rintro (h | h)
    · exact distributeRequests_isSome lb h
    · unfold LoadBalancer.distributeRequests
      rw [h]
      exact ⟨_, rfl⟩

theorem distributeRequests_kept {P : PriorityQueue} (lb lb' : LoadBalancer P)
    (offers : List Offer) (h : lb.distributeRequests = some (lb', offers)) :
    offers.map Offer.req = lb.requestQueue ∧
    lb'.requestQueue = (offers.filter fun o => !o.assigned).map Offer.req ∧
    lb'.requestQueue.Sublist lb.requestQueue := by
  obtain ⟨made, hm, hreq, hk⟩ :=
    distributeLoop_kept P _ _ _ _ _ (distributeRequests_some lb lb' offers h)
  simp only [List.nil_append] at hm hk
  subst hm
  refine ⟨hreq, hk, ?_⟩
  rw [hk, ← hreq]
  exact (List.filter_sublist _).map _

/-- C6: whenever `distributeRequests` returns, every request of the old `requestQueue` was
offered once, in order, and the new `requestQueue` consists of the requests that were not
assigned, in their original order: it is a sublist of the old one. `distributeRequests`
returns for every pool and every `requestQueue` except an empty pool with a non-empty
`requestQueue`, where `top()` of the empty priority queue has no defined result. -/
theorem distributeRequests_sublist (P : PriorityQueue) (lb : LoadBalancer P) :
    (∀ (lb' : LoadBalancer P) (offers : List Offer),
      lb.distributeRequests = some (lb', offers) →
        offers.map Offer.req = lb.requestQueue ∧
        lb'.requestQueue = (offers.filter fun o => !o.assigned).map Offer.req ∧
        lb'.requestQueue.Sublist lb.requestQueue) ∧
    ((∃ r, lb.distributeRequests = some r) ↔
      (P.toList lb.serverQueue ≠ [] ∨ lb.requestQueue = [])) := by
  exact ⟨fun lb' offers h => distributeRequests_kept lb lb' offers h,
    distributeRequests_isSome_iff lb⟩

theorem distributeRequests_sublist_witness :
    ∃ lb' offers,
      (exampleBalancer examplePool [jobA, jobB, jobC]).distributeRequests = some (lb', offers) ∧
      lb'.requestQueue = [jobB, jobC] ∧
      lb'.requestQueue.Sublist (exampleBalancer examplePool [jobA, jobB, jobC]).requestQueue :=
  ⟨_, _, rfl, rfl,
    ((distributeRequests_sublist listQueue
      (exampleBalancer examplePool [jobA, jobB, jobC])).1 _ _ rfl).2.2⟩

/-- C7: for a non-empty pool `distributeRequests` returns, and there is a list `adds` that
pairs every server of the old pool with the requests it received, such that the new pool
consists of the old servers with exactly these requests appended to their queues (and
their `processingTime` added to the load), and the old `requestQueue` is, up to order, the
new `requestQueue` together with all the requests received: every request is in exactly one
place, none is lost or duplicated. Hence `requestQueue.size()` plus the sum of all queue
lengths is the same before and after. -/
theorem distributeRequests_conserves (P : PriorityQueue) (lb : LoadBalancer P)
    (h : P.toList lb.serverQueue ≠ []) :
    ∃ (lb' : LoadBalancer P) (offers : List Offer),
      lb.distributeRequests = some (lb', offers) ∧
      (∃ adds : List (WebServer × List Request),
        (P.toList lb.serverQueue).Perm (adds.map Prod.fst) ∧
        (P.toList lb'.serverQueue).Perm (adds.map fun a => a.1.withAdded a.2) ∧
        lb.requestQueue.Perm (lb'.requestQueue ++ adds.flatMap Prod.snd)) ∧
      lb'.requestQueue.length + totalQueued (P.toList lb'.serverQueue) =
        lb.requestQueue.length + totalQueued (P.toList lb.serverQueue) := by
  obtain ⟨⟨lb', offers⟩, hr⟩ := distributeRequests_isSome lb h
  refine ⟨lb', offers, hr, ?_⟩
  obtain ⟨adds, h1, h2, h3⟩ :=
    distributeLoop_adds P _ _ _ _ _ (distributeRequests_some lb lb' offers hr)
  simp only [List.nil_append] at h3
  refine ⟨⟨adds, h1, h2, h3⟩, ?_⟩
  rw [totalQueued_perm _ _ h2, totalQueued_perm _ _ h1, totalQueued_adds, h3.length_eq,
    List.length_append]
  omega

theorem distributeRequests_conserves_witness :
    listQueue.toList (exampleBalancer examplePool [jobA, jobB, jobC]).serverQueue ≠ [] ∧
    ∃ lb' offers,
      (exampleBalancer examplePool [jobA, jobB, jobC]).distributeRequests = some (lb', offers) ∧
      (∃ adds : List (WebServer × List Request),
        (listQueue.toList (exampleBalancer examplePool [jobA, jobB, jobC]).serverQueue).Perm
          (adds.map Prod.fst) ∧
        (listQueue.toList lb'.serverQueue).Perm (adds.map fun a => a.1.withAdded a.2) ∧
        (exampleBalancer examplePool [jobA, jobB, jobC]).requestQueue.Perm
          (lb'.requestQueue ++ adds.flatMap Prod.snd)) ∧
      lb'.requestQueue.length + totalQueued (listQueue.toList lb'.serverQueue) =
        (exampleBalancer examplePool [jobA, jobB, jobC]).requestQueue.length +
          totalQueued (listQueue.toList
            (exampleBalancer examplePool [jobA, jobB, jobC]).serverQueue) :=
  ⟨by simp [exampleBalancer, examplePool, LoadBalancer.init, LoadBalancer.write, listQueue],
    distributeRequests_conserves listQueue (exampleBalancer examplePool [jobA, jobB, jobC])
      (by simp [exampleBalancer, examplePool, LoadBalancer.init, LoadBalancer.write, listQueue])⟩

/-- C8: whenever `distributeRequests` returns, every request of `requestQueue` was offered,
in order, to one server; the pool recorded with the first offer is the pool at the start and
the pool recorded with each later offer is the pool left by the offer before it (the server
offered to, with the request added if it was assigned, and the other servers); and the
server a request is offered to belongs to the pool recorded with the offer and no server of
that pool has a smaller `currentLoad`. It returns for every non-empty pool. -/
theorem distributeRequests_least_loaded (P : PriorityQueue) (lb : LoadBalancer P) :
    (∀ (lb' : LoadBalancer P) (offers : List Offer),
      lb.distributeRequests = some (lb', offers) →
        offers.map Offer.req = lb.requestQueue ∧
        (∀ o, offers.head? = some o → o.pool = P.toList lb.serverQueue) ∧
        List.Chain' (fun o₁ o₂ => o₂.pool.Perm o₁.poolAfter) offers ∧
        ∀ o ∈ offers, o.topServer ∈ o.pool ∧
          o.assigned = o.topServer.canAcceptRequest ∧
          ∀ w ∈ o.pool, o.topServer.currentLoad ≤ w.currentLoad) ∧
    (P.toList lb.serverQueue ≠ [] → ∃ r, lb.distributeRequests = some r) := by
  refine ⟨?_, distributeRequests_isSome lb⟩
  intro lb' offers h
  obtain ⟨made, hm, hreq, hall, hhead⟩ :=
    distributeLoop_offers P _ _ _ _ _ (distributeRequests_some lb lb' offers h)
  obtain ⟨made₂, hm₂, hchain, _, _⟩ :=
    distributeLoop_chain P _ _ _ _ _ (distributeRequests_some lb lb' offers h)
  simp only [List.nil_append] at hm hm₂
  subst hm
  subst hm₂
  exact ⟨hreq, hhead, hchain,
    fun o ho => ⟨(hall o ho).1, (hall o ho).2.2.1, (hall o ho).2.1⟩⟩

theorem distributeRequests_least_loaded_witness :
    ∃ lb' offers,
      (exampleBalancer examplePool [jobA, jobB]).distributeRequests = some (lb', offers) ∧
      offers.map Offer.topServer = [WebServer.init 1 1, ⟨1, 3, [jobA], 1⟩] ∧
      offers.map Offer.pool = [examplePool, [⟨0, 5, [jobC], 1⟩, ⟨1, 3, [jobA], 1⟩]] ∧
      ∀ o ∈ offers, o.topServer ∈ o.pool ∧
        o.assigned = o.topServer.canAcceptRequest ∧
        ∀ w ∈ o.pool, o.topServer.currentLoad ≤ w.currentLoad :=
  ⟨_, _, rfl, rfl, rfl,
    ((distributeRequests_least_loaded listQueue
      (exampleBalancer examplePool [jobA, jobB])).1 _ _ rfl).2.2.2⟩

/-! ## The round: fields that the steps leave alone -/

@[simp]
theorem write_requestQueue {P : PriorityQueue} (lb : LoadBalancer P)
    (lines : List LogLine) : (lb.write lines).requestQueue = lb.requestQueue := by
  unfold LoadBalancer.write
  split <;> rfl

@[simp]
theorem write_serverQueue {P : PriorityQueue} (lb : LoadBalancer P)
    (lines : List LogLine) : (lb.write lines).serverQueue = lb.serverQueue := by
  unfold LoadBalancer.write
  split <;> rfl

@[simp]
theorem resetTaskTimeRange_requestQueue {P : PriorityQueue} (lb : LoadBalancer P) :
    lb.resetTaskTimeRange.requestQueue = lb.requestQueue := rfl

@[simp]
theorem resetTaskTimeRange_serverQueue {P : PriorityQueue} (lb : LoadBalancer P) :
    lb.resetTaskTimeRange.serverQueue = lb.serverQueue := rfl

@[simp]
theorem logCycleInfo_requestQueue {P : PriorityQueue} (lb : LoadBalancer P)
    (t a b : Int) : (lb.logCycleInfo t a b).requestQueue = lb.requestQueue := by
  simp [LoadBalancer.logCycleInfo]

@[simp]
theorem logCycleInfo_serverQueue {P : PriorityQueue} (lb : LoadBalancer P)
    (t a b : Int) : (lb.logCycleInfo t a b).serverQueue = lb.serverQueue := by
  simp [LoadBalancer.logCycleInfo]

@[simp]
theorem addRandomRequests_serverQueue {P : PriorityQueue} (rand : Nat → Nat)
    (lb : LoadBalancer P) : (lb.addRandomRequests rand).serverQueue = lb.serverQueue := by
  unfold LoadBalancer.addRandomRequests
  split
  · simp
  · rfl

theorem addRandomRequests_length {P : PriorityQueue} (rand : Nat → Nat)
    (lb : LoadBalancer P) :
    (lb.addRandomRequests rand).requestQueue.length =
      lb.requestQueue.length + (if rand lb.randCalls % 5 = 0 then 1 else 0) := by
  unfold LoadBalancer.addRandomRequests
  split
  · simp
  · simp

theorem arrivals_eq {P : PriorityQueue} (rand : Nat → Nat) (lb : LoadBalancer P) :
    lb.arrivals rand = if rand lb.randCalls % 5 = 0 then 1 else 0 := by
  unfold LoadBalancer.arrivals
  rw [addRandomRequests_length]
  omega

/-! ## The loop that advances every server -/

theorem pushAll_perm (P : PriorityQueue) (servers : List WebServer) :
    ∀ q : P.Q, (P.toList (pushAll P q servers)).Perm (servers ++ P.toList q) := by
  induction servers with
  | nil => intro q; exact List.Perm.refl _
  | cons x l ih =>
    intro q
    have h1 : (P.toList (pushAll P (P.push q x) l)).Perm (l ++ P.toList (P.push q x)) :=
      ih (P.push q x)
    have h2 : (l ++ P.toList (P.push q x)).Perm (l ++ x :: P.toList q) :=
      (P.push_perm q x).append_left l
    have h3 : (l ++ x :: P.toList q).Perm (x :: (l ++ P.toList q)) := List.perm_middle
    exact (h1.trans h2).trans h3

theorem advanceLoop_spec (P : PriorityQueue) (fuel : Nat) :
    ∀ a : Advance P, P.size a.serverQueue ≤ fuel →
      P.toList (advanceLoop P fuel a).serverQueue = [] ∧
      (advanceLoop P fuel a).servers.Perm
        (a.servers ++ (P.toList a.serverQueue).map fun w => w.processJobs.1) := by
  induction fuel with
  | zero =>
    intro a h
    have hnil : P.toList a.serverQueue = [] :=
      List.length_eq_zero.mp (Nat.le_zero.mp h)
    simp [advanceLoop, hnil]
  | succ n ih =>
    intro a h
    cases ht : P.top a.serverQueue with
    | none =>
      have hnil := (P.top_none a.serverQueue).mp ht
      simp [advanceLoop, ht, hnil]
    | some t =>
      have hpop := P.pop_perm a.serverQueue t ht
      have hlen : P.size (P.pop a.serverQueue) ≤ n := by
        have := hpop.length_eq
        simp only [PriorityQueue.size, List.length_cons] at this h ⊢
        omega
      simp only [advanceLoop, ht]
      obtain ⟨h1, h2⟩ := ih
        { serverQueue := P.pop a.serverQueue,
          servers := a.servers ++ [t.processJobs.1],
          activeServers :=
            if t.processJobs.1.isActive then a.activeServers + 1 else a.activeServers,
          inactiveServers :=
            if t.processJobs.1.isActive then a.inactiveServers else a.inactiveServers + 1,
          output := a.output ++ t.processJobs.2 } hlen
      refine ⟨h1, h2.trans ?_⟩
      have h3 : ((P.toList a.serverQueue).map fun w => w.processJobs.1).Perm
          (t.processJobs.1 :: (P.toList (P.pop a.serverQueue)).map fun w => w.processJobs.1) :=
        hpop.map _
      simp only [List.append_assoc, List.singleton_append]
      exact h3.symm.append_left a.servers

theorem advanceAll_pool {P : PriorityQueue} (lb : LoadBalancer P) :
    (P.toList lb.advanceAll.1.serverQueue).Perm
      ((P.toList lb.serverQueue).map fun w => w.processJobs.1) := by
  obtain ⟨h1, h2⟩ := advanceLoop_spec P (P.size lb.serverQueue)
    { serverQueue := lb.serverQueue, servers := [], activeServers := 0,
      inactiveServers := 0, output := [] } (Nat.le_refl _)
  have h3 := pushAll_perm P
    (advanceLoop P (P.size lb.serverQueue)
      { serverQueue := lb.serverQueue, servers := [], activeServers := 0,
        inactiveServers := 0, output := [] }).servers
    (advanceLoop P (P.size lb.serverQueue)
      { serverQueue := lb.serverQueue, servers := [], activeServers := 0,
        inactiveServers := 0, output := [] }).serverQueue
  rw [h1, List.append_nil] at h3
  simp only [List.nil_append] at h2
  exact h3.trans h2

@[simp]
theorem advanceAll_requestQueue {P : PriorityQueue} (lb : LoadBalancer P) :
    lb.advanceAll.1.requestQueue = lb.requestQueue := rfl

/-! ## One round and several rounds -/

theorem round_some {P : PriorityQueue} (rand : Nat → Nat) (lb lb' : LoadBalancer P)
    (currentTime : Int) (h : lb.round rand currentTime = some lb') :
    ∃ (lb2 : LoadBalancer P) (offers : List Offer),
      ((lb.addRandomRequests rand).write
        [LogLine.timeHeader currentTime lb.requestQueue.length]).distributeRequests =
          some (lb2, offers) ∧
      lb'.requestQueue = lb2.requestQueue ∧
      (P.toList lb'.serverQueue).Perm
        ((P.toList lb2.serverQueue).map fun w => w.processJobs.1) := by
  unfold LoadBalancer.round at h
  simp only at h
  cases hd : ((lb.addRandomRequests rand).write
      [LogLine.timeHeader currentTime lb.requestQueue.length]).distributeRequests with
  | none => rw [hd] at h; exact absurd h (by simp)
  | some r =>
    obtain ⟨lb2, offers⟩ := r
    rw [hd] at h
    simp only [Option.some.injEq] at h
    refine ⟨lb2, offers, rfl, ?_, ?_⟩
    · rw [← h]
      split <;> simp
    · rw [← h]
      have := advanceAll_pool lb2
      split <;> simpa using this

theorem round_isSome {P : PriorityQueue} (rand : Nat → Nat) (lb : LoadBalancer P)
    (currentTime : Int) (h : P.toList lb.serverQueue ≠ []) :
    ∃ lb', lb.round rand currentTime = some lb' := by
  obtain ⟨⟨lb2, offers⟩, hd⟩ := distributeRequests_isSome
    ((lb.addRandomRequests rand).write
      [LogLine.timeHeader currentTime lb.requestQueue.length]) (by simpa using h)
  unfold LoadBalancer.round
  simp only
  rw [hd]
  exact ⟨_, rfl⟩

theorem distributeRequests_size {P : PriorityQueue} (lb lb' : LoadBalancer P)
    (offers : List Offer) (h : lb.distributeRequests = some (lb', offers)) :
    P.size lb'.serverQueue = P.size lb.serverQueue := by
  obtain ⟨adds, h1, h2, _⟩ :=
    distributeLoop_adds P _ _ _ _ _ (distributeRequests_some lb lb' offers h)
  have e1 := h1.length_eq
  have e2 := h2.length_eq
  simp only [List.length_map] at e1 e2
  simp only [PriorityQueue.size]
  omega

theorem distributeRequests_forall {P : PriorityQueue} (I : WebServer → Prop)
    (hadd : ∀ w req, I w → I (w.addRequest req).1) (lb lb' : LoadBalancer P)
    (offers : List Offer) (h : lb.distributeRequests = some (lb', offers))
    (hq : ∀ w ∈ P.toList lb.serverQueue, I w) : ∀ w ∈ P.toList lb'.serverQueue, I w :=
  distributeLoop_forall P I hadd _ _ _ _ _ (distributeRequests_some lb lb' offers h) hq

theorem round_size {P : PriorityQueue} (rand : Nat → Nat) (lb lb' : LoadBalancer P)
    (currentTime : Int) (h : lb.round rand currentTime = some lb') :
    P.size lb'.serverQueue = P.size lb.serverQueue := by
  obtain ⟨lb2, offers, hd, _, hp⟩ := round_some rand lb lb' currentTime h
  have e1 := distributeRequests_size _ _ _ hd
  have e2 := hp.length_eq
  simp only [List.length_map] at e2
  simp only [PriorityQueue.size, write_serverQueue, addRandomRequests_serverQueue] at e1 ⊢
  omega

theorem round_forall {P : PriorityQueue} (I : WebServer → Prop)
    (hadd : ∀ w req, I w → I (w.addRequest req).1) (hproc : ∀ w, I w → I w.processJobs.1)
    (rand : Nat → Nat) (lb lb' : LoadBalancer P) (currentTime : Int)
    (h : lb.round rand currentTime = some lb')
    (hq : ∀ w ∈ P.toList lb.serverQueue, I w) : ∀ w ∈ P.toList lb'.serverQueue, I w := by
  obtain ⟨lb2, offers, hd, _, hp⟩ := round_some rand lb lb' currentTime h
  have h2 := distributeRequests_forall I hadd _ _ _ hd (by simpa using hq)
  intro w hw
  obtain ⟨v, hv, rfl⟩ := List.mem_map.mp (hp.subset hw)
  exact hproc v (h2 v hv)

theorem rounds_forall {P : PriorityQueue} (I : WebServer → Prop)
    (hadd : ∀ w req, I w → I (w.addRequest req).1) (hproc : ∀ w, I w → I w.processJobs.1)
    (rand : Nat → Nat) (n : Nat) :
    ∀ (currentTime : Int) (lb lb' : LoadBalancer P),
      LoadBalancer.rounds rand n currentTime lb = some lb' →
      (∀ w ∈ P.toList lb.serverQueue, I w) → ∀ w ∈ P.toList lb'.serverQueue, I w := by
  induction n with
  | zero =>
    intro t lb lb' h hq
    simp only [LoadBalancer.rounds, Option.some.injEq] at h
    subst h
    exact hq
  | succ n ih =>
    intro t lb lb' h hq
    simp only [LoadBalancer.rounds] at h
    cases hr : lb.round rand t with
    | none => rw [hr] at h; exact absurd h (by simp)
    | some lb1 =>
      rw [hr] at h
      exact ih (t + 1) lb1 lb' h (round_forall I hadd hproc rand lb lb1 t hr hq)

theorem rounds_isSome {P : PriorityQueue} (rand : Nat → Nat) (n : Nat) :
    ∀ (currentTime : Int) (lb : LoadBalancer P), P.toList lb.serverQueue ≠ [] →
      ∃ lb', LoadBalancer.rounds rand n currentTime lb = some lb' := by
  induction n with
  | zero => intro t lb _; exact ⟨lb, rfl⟩
  | succ n ih =>
    intro t lb h
    obtain ⟨lb1, hr⟩ := round_isSome rand lb t h
    have hsize := round_size rand lb lb1 t hr
    have h1 : P.toList lb1.serverQueue ≠ [] := by
      intro hnil
      simp only [PriorityQueue.size, hnil, List.length_nil] at hsize
      exact h (List.length_eq_zero.mp hsize.symm)
    obtain ⟨lb', hl⟩ := ih (t + 1) lb1 h1
    exact ⟨lb', by simp only [LoadBalancer.rounds, hr, hl]⟩

theorem run_maxQueueSize (ops : List ServerOp) :
    ∀ s : WebServer, (s.run ops).maxQueueSize = s.maxQueueSize := by
  induction ops with
  | nil => intro s; rfl
  | cons op ops ih =>
    intro s
    show ((s.step op).run ops).maxQueueSize = s.maxQueueSize
    rw [ih]
    cases op with
    | addRequest req => exact addRequest_maxQueueSize s req
    | processJobs => exact processJobs_maxQueueSize s

/-- C10: in every round of `go` the requests that arrive are exactly the growth of
`requestQueue` in `addRandomRequests`, and whenever the round returns, `requestQueue` at
its end is at most `requestQueue` at its start plus the arrivals. The round returns for
every non-empty pool. -/
theorem round_backlog_bound (P : PriorityQueue) (rand : Nat → Nat) (lb : LoadBalancer P)
    (currentTime : Int) :
    (lb.addRandomRequests rand).requestQueue.length =
      lb.requestQueue.length + lb.arrivals rand ∧
    (∀ lb' : LoadBalancer P, lb.round rand currentTime = some lb' →
      lb'.requestQueue.length ≤ lb.requestQueue.length + lb.arrivals rand) ∧
    (P.toList lb.serverQueue ≠ [] → ∃ lb', lb.round rand currentTime = some lb') := by
  have ha : (lb.addRandomRequests rand).requestQueue.length =
      lb.requestQueue.length + lb.arrivals rand := by
    rw [arrivals_eq, addRandomRequests_length]
  refine ⟨ha, ?_, round_isSome rand lb currentTime⟩
  intro lb' h
  obtain ⟨lb2, offers, hd, hrq, _⟩ := round_some rand lb lb' currentTime h
  have hs := (distributeRequests_kept _ _ _ hd).2.2.length_le
  rw [write_requestQueue, ha] at hs
  rw [hrq]
  exact hs

theorem round_backlog_bound_witness :
    ∃ lb', (exampleBalancer examplePool [jobA, jobB]).round (fun _ => 0) 0 = some lb' ∧
      (exampleBalancer examplePool [jobA, jobB]).arrivals (fun _ => 0) = 1 ∧
      lb'.requestQueue.length = 2 ∧
      lb'.requestQueue.length ≤ (exampleBalancer examplePool [jobA, jobB]).requestQueue.length +
        (exampleBalancer examplePool [jobA, jobB]).arrivals (fun _ => 0) :=
  ⟨_, rfl, rfl, rfl,
    (round_backlog_bound listQueue (fun _ => 0) (exampleBalancer examplePool [jobA, jobB])
      0).2.1 _ rfl⟩

/-- C1: a worker constructed with a capacity `c ≥ 0` (and an empty queue) has, after every
finite sequence of `addRequest` and `processJobs` calls, at most `c` requests in its queue;
and if every server of the pool is such a worker, then after any number of rounds of `go`
every server of the pool has at most `maxQueueSize` requests in its queue. The rounds
return for every non-empty pool. -/
theorem queue_within_capacity (serverID c : Int) (ops : List ServerOp) (hc : 0 ≤ c)
    (P : PriorityQueue) (rand : Nat → Nat) (n : Nat) (currentTime : Int)
    (lb : LoadBalancer P)
    (hpool : ∀ w ∈ P.toList lb.serverQueue, ∃ (i k : Int) (l : List ServerOp),
      0 ≤ k ∧ w = (WebServer.init i k).run l) :
    (((WebServer.init serverID c).run ops).jobQueue.length : Int) ≤ c ∧
    (∀ lb' : LoadBalancer P, LoadBalancer.rounds rand n currentTime lb = some lb' →
      ∀ w ∈ P.toList lb'.serverQueue, (w.jobQueue.length : Int) ≤ w.maxQueueSize) ∧
    (P.toList lb.serverQueue ≠ [] →
      ∃ lb', LoadBalancer.rounds rand n currentTime lb = some lb') := by
  refine ⟨?_, ?_, rounds_isSome rand n currentTime lb⟩
  · have h := bounded_run ops (WebServer.init serverID c) (bounded_init serverID c hc)
    unfold WebServer.Bounded at h
    rw [run_maxQueueSize] at h
    exact h
  · intro lb' h
    refine rounds_forall WebServer.Bounded bounded_addRequest bounded_processJobs rand n
      currentTime lb lb' h ?_
    intro w hw
    obtain ⟨i, k, l, hk, rfl⟩ := hpool w hw
    exact bounded_run l _ (bounded_init i k hk)

theorem queue_within_capacity_witness :
    ((((WebServer.init 0 1).run
        [ServerOp.addRequest jobA, ServerOp.addRequest jobB, ServerOp.processJobs,
         ServerOp.addRequest jobC]).jobQueue.length : Nat) : Int) ≤ 1 ∧
    ∃ lb', LoadBalancer.rounds (fun _ => 0) 3 0
        (exampleBalancer [WebServer.init 0 1, WebServer.init 1 2] [jobA, jobB, jobC]) =
          some lb' ∧
      ∀ w ∈ listQueue.toList lb'.serverQueue, (w.jobQueue.length : Int) ≤ w.maxQueueSize :=
  have h := queue_within_capacity 0 1
    [ServerOp.addRequest jobA, ServerOp.addRequest jobB, ServerOp.processJobs,
      ServerOp.addRequest jobC] (by decide) listQueue (fun _ => 0) 3 0
    (exampleBalancer [WebServer.init 0 1, WebServer.init 1 2] [jobA, jobB, jobC])
    (by
      intro w hw
      have hw2 : w ∈ [WebServer.init 0 1, WebServer.init 1 2] := hw
      simp only [List.mem_cons, List.mem_singleton, List.not_mem_nil, or_false] at hw2
      rcases hw2 with rfl | rfl
      · exact ⟨0, 1, [], by decide, rfl⟩
      · exact ⟨1, 2, [], by decide, rfl⟩)
  ⟨h.1, _, rfl, h.2.1 _ rfl⟩

/-! ## Workers: what one call of `processJobs` changes -/

theorem processJobs_load (s : WebServer) (job : Request) (rest : List Request)
    (h : s.jobQueue = job :: rest) :
    s.processJobs.1.currentLoad =
      if job.processingTime > 0 then (if s.currentLoad - 1 < 0 then 0 else s.currentLoad - 1)
      else s.currentLoad := by
  unfold WebServer.processJobs
  rw [h]
  dsimp only
  split <;> split <;> rfl

/-- C16: `processJobs` leaves a worker with an empty queue entirely unchanged (and writes
nothing); on a queue `job :: rest` it keeps `id` and `maxQueueSize`, leaves the requests
behind the front as they are and in their order, and either removes the front request
(when its `processingTime` is at most 1) or keeps it with `processingTime` lowered by
exactly 1, so the queue loses at most its front element; `currentLoad` is lowered by at
most 1, is never raised above `max currentLoad 0`, and stays non-negative when it was. -/
theorem processJobs_frame (s : WebServer) :
    (s.jobQueue = [] → s.processJobs = (s, [])) ∧
    (∀ (job : Request) (rest : List Request), s.jobQueue = job :: rest →
      (job.processingTime ≤ 1 → s.processJobs.1.jobQueue = rest) ∧
      (1 < job.processingTime → s.processJobs.1.jobQueue =
        { job with processingTime := job.processingTime - 1 } :: rest)) ∧
    s.processJobs.1.id = s.id ∧
    s.processJobs.1.maxQueueSize = s.maxQueueSize ∧
    s.currentLoad - 1 ≤ s.processJobs.1.currentLoad ∧
    s.processJobs.1.currentLoad ≤ max s.currentLoad 0 ∧
    (0 ≤ s.currentLoad → 0 ≤ s.processJobs.1.currentLoad) ∧
    s.jobQueue.length - 1 ≤ s.processJobs.1.jobQueue.length ∧
    s.processJobs.1.jobQueue.length ≤ s.jobQueue.length := by
  have hload : s.currentLoad - 1 ≤ s.processJobs.1.currentLoad ∧
      s.processJobs.1.currentLoad ≤ max s.currentLoad 0 ∧
      (0 ≤ s.currentLoad → 0 ≤ s.processJobs.1.currentLoad) := by
    cases hq : s.jobQueue with
    | nil =>
      rw [processJobs_nil s hq]
      refine ⟨by simp, le_max_left _ _, fun h => h⟩
    | cons job rest =>
      rw [processJobs_load s job rest hq]
      have hm := le_max_left s.currentLoad 0
      have hm0 := le_max_right s.currentLoad 0
      split
      · split
        · exact ⟨by omega, hm0, fun _ => le_refl _⟩
        · exact ⟨le_refl _, by omega, fun _ => by omega⟩
      · exact ⟨by omega, hm, fun h => h⟩
  have hlen : s.jobQueue.length - 1 ≤ s.processJobs.1.jobQueue.length := by
    cases hq : s.jobQueue with
    | nil => simp
    | cons job rest =>
      by_cases hk : 1 < job.processingTime
      · rw [processJobs_front_gt_one s job rest hq hk]
        simp
      · rw [processJobs_front_le_one s job rest hq (by omega)]
        simp
  exact ⟨processJobs_nil s,
    fun job rest h => ⟨processJobs_front_le_one s job rest h,
      processJobs_front_gt_one s job rest h⟩,
    processJobs_id s, processJobs_maxQueueSize s, hload.1, hload.2.1, hload.2.2, hlen,
    processJobs_length_le s⟩

theorem processJobs_frame_witness :
    (⟨4, 8, [jobA, jobC], 2⟩ : WebServer).processJobs.1 =
      ⟨4, 7, [{ jobA with processingTime := 2 }, jobC], 2⟩ ∧
    (⟨4, 1, [jobB, jobC], 2⟩ : WebServer).processJobs.1.jobQueue = [jobC] ∧
    (WebServer.init 4 2).processJobs = (WebServer.init 4 2, []) :=
  ⟨by decide,
   ((processJobs_frame ⟨4, 1, [jobB, jobC], 2⟩).2.1 jobB [jobC] rfl).1 (by decide),
   (processJobs_frame (WebServer.init 4 2)).1 rfl⟩

/-! ## Workers: a load below the queued work -/

/-- C17: there is a worker state, reached from a newly constructed worker by `addRequest`
calls with non-negative `processingTime` (and `processJobs` calls), that has more than one
request queued and a `currentLoad` below the sum of the queued `processingTime`: a worker
of capacity 2 that was given `jobMax` twice has load `-2` for queued work 4294967294, and
after one `processJobs` call load 0 (the clamp) for queued work 4294967293. -/
theorem reachable_undercount :
    ((WebServer.init 0 2).run [ServerOp.addRequest jobMax, ServerOp.addRequest jobMax]) =
      ⟨0, -2, [jobMax, jobMax], 2⟩ ∧
    ((WebServer.init 0 2).run [ServerOp.addRequest jobMax, ServerOp.addRequest jobMax,
      ServerOp.processJobs]) =
      ⟨0, 0, [{ jobMax with processingTime := 2147483646 }, jobMax], 2⟩ ∧
    ∃ (serverID maxQueueSize : Int) (ops : List ServerOp),
      (∀ req, ServerOp.addRequest req ∈ ops → 0 ≤ req.processingTime) ∧
      1 < ((WebServer.init serverID maxQueueSize).run ops).jobQueue.length ∧
      ((WebServer.init serverID maxQueueSize).run ops).currentLoad <
        queuedWork ((WebServer.init serverID maxQueueSize).run ops).jobQueue := by
  refine ⟨by decide, by decide, 0, 2,
    [ServerOp.addRequest jobMax, ServerOp.addRequest jobMax, ServerOp.processJobs],
    ?_, by decide, by decide⟩
  intro req hreq
  simp only [List.mem_cons, ServerOp.addRequest.injEq, reduceCtorEq, List.not_mem_nil,
    or_false, or_self] at hreq
  subst hreq
  decide

/-! ## Distribution when every least-loaded server is full -/

theorem distributeLoop_rejects (P : PriorityQueue) (L : List WebServer)
    (hL : ∀ t ∈ L, (∀ y ∈ L, t.currentLoad ≤ y.currentLoad) → t.canAcceptRequest = false)
    (rq : List Request) :
    ∀ (q : P.Q) (temp : List Request) (offers : List Offer)
      (r : P.Q × List Request × List Offer),
      (P.toList q).Perm L → distributeLoop P rq q temp offers = some r →
      (P.toList r.1).Perm L ∧ r.2.1 = temp ++ rq ∧
      ∃ made : List Offer, r.2.2 = offers ++ made ∧
        ∀ o ∈ made, o.assigned = false ∧ o.topServer ∈ L ∧
          ∀ y ∈ L, o.topServer.currentLoad ≤ y.currentLoad := by
  induction rq with
  | nil =>
    intro q temp offers r hq h
    simp only [distributeLoop, Option.some.injEq] at h
    subst h
    exact ⟨hq, by simp, [], by simp, by simp⟩
  | cons req rq ih =>
    intro q temp offers r hq h
    cases ht : P.top q with
    | none =>
      rw [distributeLoop_empty_pool P req rq q temp offers ((P.top_none q).mp ht)] at h
      exact absurd h (by simp)
    | some t =>
      have htL : t ∈ L := hq.subset (top_mem P q t ht)
      have hmin : ∀ y ∈ L, t.currentLoad ≤ y.currentLoad :=
        fun y hy => top_load_le P q t ht y (hq.symm.subset hy)
      have hc : t.canAcceptRequest = false := hL t htL hmin
      rw [distributeLoop_reject P req rq q temp offers t ht hc] at h
      have hq2 : (P.toList (P.push (P.pop q) t)).Perm L :=
        ((P.push_perm (P.pop q) t).trans (P.pop_perm q t ht).symm).trans hq
      obtain ⟨h1, h2, made, hm, hall⟩ := ih _ _ _ r hq2 h
      refine ⟨h1, by rw [h2]; simp, ⟨req, P.toList q, t, false, []⟩ :: made,
        by rw [hm]; simp, ?_⟩
      intro o ho
      rcases List.mem_cons.mp ho with rfl | ho2
      · exact ⟨rfl, htL, hmin⟩
      · exact hall o ho2

theorem distributeRequests_rejects {P : PriorityQueue} (lb : LoadBalancer P)
    (hne : P.toList lb.serverQueue ≠ [])
    (hL : ∀ t ∈ P.toList lb.serverQueue,
      (∀ y ∈ P.toList lb.serverQueue, t.currentLoad ≤ y.currentLoad) →
        t.canAcceptRequest = false) :
    ∃ (lb' : LoadBalancer P) (offers : List Offer),
      lb.distributeRequests = some (lb', offers) ∧
      lb'.requestQueue = lb.requestQueue ∧
      (P.toList lb'.serverQueue).Perm (P.toList lb.serverQueue) ∧
      ∀ o ∈ offers, o.assigned = false ∧ o.topServer ∈ P.toList lb.serverQueue ∧
        ∀ y ∈ P.toList lb.serverQueue, o.topServer.currentLoad ≤ y.currentLoad := by
  obtain ⟨⟨lb', offers⟩, hr⟩ := distributeRequests_isSome lb hne
  obtain ⟨h1, h2, made, hm, hall⟩ := distributeLoop_rejects P _ hL _ _ _ _ _
    (List.Perm.refl _) (distributeRequests_some lb lb' offers hr)
  simp only [List.nil_append] at h2 hm
  subst hm
  exact ⟨lb', offers, hr, h2, h1, hall⟩

/-- C12: if the pool is not empty and no server of it can accept a request, then for every
`requestQueue` `distributeRequests` returns, `requestQueue` is afterwards exactly what it
was, the pool consists of the same servers in the same states, and no request was
assigned. -/
theorem distributeRequests_all_full (P : PriorityQueue) (lb : LoadBalancer P)
    (hne : P.toList lb.serverQueue ≠ [])
    (hfull : ∀ w ∈ P.toList lb.serverQueue, w.canAcceptRequest = false) :
    ∃ (lb' : LoadBalancer P) (offers : List Offer),
      lb.distributeRequests = some (lb', offers) ∧
      lb'.requestQueue = lb.requestQueue ∧
      (P.toList lb'.serverQueue).Perm (P.toList lb.serverQueue) ∧
      ∀ o ∈ offers, o.assigned = false := by
  obtain ⟨lb', offers, hr, h1, h2, h3⟩ :=
    distributeRequests_rejects lb hne (fun t ht _ => hfull t ht)
  exact ⟨lb', offers, hr, h1, h2, fun o ho => (h3 o ho).1⟩

theorem distributeRequests_all_full_witness :
    (∃ (lb' : LoadBalancer listQueue) (offers : List Offer),
      (exampleBalancer fullPool [jobA, jobB]).distributeRequests = some (lb', offers) ∧
      lb'.requestQueue = (exampleBalancer fullPool [jobA, jobB]).requestQueue ∧
      (listQueue.toList lb'.serverQueue).Perm
        (listQueue.toList (exampleBalancer fullPool [jobA, jobB]).serverQueue) ∧
      ∀ o ∈ offers, o.assigned = false) ∧
    (exampleBalancer fullPool [jobA, jobB]).requestQueue = [jobA, jobB] ∧
    listQueue.toList (exampleBalancer fullPool [jobA, jobB]).serverQueue =
      [⟨0, 5, [jobC], 1⟩] :=
  ⟨distributeRequests_all_full listQueue (exampleBalancer fullPool [jobA, jobB])
      (by
        show fullPool ≠ []
        decide)
      (by
        intro w hw
        have hw2 : w ∈ fullPool := hw
        simp only [fullPool, List.mem_singleton] at hw2
        subst hw2
        decide),
    rfl, rfl⟩

/-- C18: if one server of the pool has a `currentLoad` strictly below that of every other
server and cannot accept a request, then `distributeRequests` returns, every request was
offered to that server only and none was assigned, `requestQueue` is afterwards exactly
what it was, and the pool consists of the same servers in the same states, whatever free
slots the other servers have. -/
theorem distributeRequests_no_second_choice (P : PriorityQueue) (lb : LoadBalancer P)
    (m : WebServer) (others : List WebServer)
    (hpool : (P.toList lb.serverQueue).Perm (m :: others))
    (hmin : ∀ x ∈ others, m.currentLoad < x.currentLoad)
    (hfull : m.canAcceptRequest = false) :
    ∃ (lb' : LoadBalancer P) (offers : List Offer),
      lb.distributeRequests = some (lb', offers) ∧
      lb'.requestQueue = lb.requestQueue ∧
      (P.toList lb'.serverQueue).Perm (P.toList lb.serverQueue) ∧
      offers.map Offer.req = lb.requestQueue ∧
      ∀ o ∈ offers, o.topServer = m ∧ o.assigned = false := by
  have hne : P.toList lb.serverQueue ≠ [] := by
    intro hnil
    rw [hnil] at hpool
    exact absurd hpool.symm (by simp)
  have hm : m ∈ P.toList lb.serverQueue := hpool.symm.subset (List.mem_cons_self _ _)
  have honly : ∀ t ∈ P.toList lb.serverQueue,
      (∀ y ∈ P.toList lb.serverQueue, t.currentLoad ≤ y.currentLoad) → t = m := by
    intro t ht hle
    rcases List.mem_cons.mp (hpool.subset ht) with h | h
    · exact h
    · have h1 := hmin t h
      have h2 := hle m hm
      omega
  obtain ⟨lb', offers, hr, h1, h2, h3⟩ := distributeRequests_rejects lb hne
    (fun t ht hle => by rw [honly t ht hle]; exact hfull)
  exact ⟨lb', offers, hr, h1, h2, (distributeRequests_kept lb lb' offers hr).1,
    fun o ho => ⟨honly _ (h3 o ho).2.1 (h3 o ho).2.2, (h3 o ho).1⟩⟩

theorem distributeRequests_no_second_choice_witness :
    (⟨1, 5, [jobC], 2⟩ : WebServer).canAcceptRequest = true ∧
    (exampleBalancer outbidPool [jobA, jobC]).requestQueue = [jobA, jobC] ∧
    ∃ (lb' : LoadBalancer listQueue) (offers : List Offer),
      (exampleBalancer outbidPool [jobA, jobC]).distributeRequests = some (lb', offers) ∧
      lb'.requestQueue = (exampleBalancer outbidPool [jobA, jobC]).requestQueue ∧
      (listQueue.toList lb'.serverQueue).Perm
        (listQueue.toList (exampleBalancer outbidPool [jobA, jobC]).serverQueue) ∧
      offers.map Offer.req = (exampleBalancer outbidPool [jobA, jobC]).requestQueue ∧
      ∀ o ∈ offers, o.topServer = ⟨0, 1, [jobB], 1⟩ ∧ o.assigned = false :=
  ⟨by decide, rfl,
    distributeRequests_no_second_choice listQueue (exampleBalancer outbidPool [jobA, jobC])
      ⟨0, 1, [jobB], 1⟩ [⟨1, 5, [jobC], 2⟩] (List.Perm.refl _)
      (by
        intro x hx
        simp only [List.mem_singleton] at hx
        subst hx
        decide)
      (by decide)⟩

/-! ## `addRequest` inside `distributeRequests` -/

/-- C20: whenever `distributeRequests` returns, `addRequest` was called exactly for the
offers whose server had just answered `canAcceptRequest` with true; each such call wrote
nothing and appended the request to the queue of that server, no offer wrote any line (so
no rejection line), and the servers' output is what it was before. It returns for every
non-empty pool. -/
theorem distributeRequests_no_rejection (P : PriorityQueue) (lb : LoadBalancer P) :
    (∀ (lb' : LoadBalancer P) (offers : List Offer),
      lb.distributeRequests = some (lb', offers) →
        lb'.serverOutput = lb.serverOutput ∧
        ∀ o ∈ offers, o.output = [] ∧
          o.assigned = o.topServer.canAcceptRequest ∧
          (o.assigned = true →
            (o.topServer.addRequest o.req).2 = [] ∧
            (o.topServer.addRequest o.req).1.jobQueue = o.topServer.jobQueue ++ [o.req] ∧
            (o.topServer.addRequest o.req).1 ∈ o.poolAfter)) ∧
    (P.toList lb.serverQueue ≠ [] → ∃ r, lb.distributeRequests = some r) := by
  refine ⟨?_, distributeRequests_isSome lb⟩
  intro lb' offers h
  obtain ⟨made, hm, _, hall, _⟩ :=
    distributeLoop_offers P _ _ _ _ _ (distributeRequests_some lb lb' offers h)
  simp only [List.nil_append] at hm
  subst hm
  have hout : offers.flatMap Offer.output = [] := by
    have : ∀ (l : List Offer), (∀ o ∈ l, o.output = []) → l.flatMap Offer.output = [] := by
      intro l
      induction l with
      | nil => intro _; rfl
      | cons a l ih =>
        intro hl
        simp only [List.flatMap_cons, hl a (List.mem_cons_self _ _), List.nil_append]
        exact ih (fun o ho => hl o (List.mem_cons_of_mem _ ho))
    exact this offers (fun o ho => (hall o ho).2.2.2)
  refine ⟨?_, ?_⟩
  · unfold LoadBalancer.distributeRequests at h
    rw [distributeRequests_some lb lb' offers h] at h
    simp only [Option.some.injEq, Prod.mk.injEq] at h
    rw [← h.1]
    simp [hout]
  · intro o ho
    obtain ⟨_, _, hassigned, houtput⟩ := hall o ho
    refine ⟨houtput, hassigned, ?_⟩
    intro ha
    have hc : o.topServer.canAcceptRequest = true := by rw [← hassigned]; exact ha
    refine ⟨by simp [WebServer.addRequest, hc], by simp [WebServer.addRequest, hc], ?_⟩
    simp [Offer.poolAfter, ha]

theorem distributeRequests_no_rejection_witness :
    ∃ lb' offers,
      (exampleBalancer examplePool [jobA, jobB]).distributeRequests = some (lb', offers) ∧
      offers.map Offer.assigned = [true, false] ∧
      lb'.serverOutput = (exampleBalancer examplePool [jobA, jobB]).serverOutput ∧
      ∀ o ∈ offers, o.output = [] ∧
        o.assigned = o.topServer.canAcceptRequest ∧
        (o.assigned = true →
          (o.topServer.addRequest o.req).2 = [] ∧
          (o.topServer.addRequest o.req).1.jobQueue = o.topServer.jobQueue ++ [o.req] ∧
          (o.topServer.addRequest o.req).1 ∈ o.poolAfter) :=
  ⟨_, _, rfl, rfl,
    ((distributeRequests_no_rejection listQueue
      (exampleBalancer examplePool [jobA, jobB])).1 _ _ rfl).1,
    ((distributeRequests_no_rejection listQueue
      (exampleBalancer examplePool [jobA, jobB])).1 _ _ rfl).2⟩

/-! ## The round: log file, task-time window and counters -/

@[simp]
theorem write_logOpen {P : PriorityQueue} (lb : LoadBalancer P) (lines : List LogLine) :
    (lb.write lines).logOpen = lb.logOpen := by
  unfold LoadBalancer.write
  split <;> rfl

@[simp]
theorem write_minTaskTime {P : PriorityQueue} (lb : LoadBalancer P) (lines : List LogLine) :
    (lb.write lines).minTaskTime = lb.minTaskTime := by
  unfold LoadBalancer.write
  split <;> rfl

@[simp]
theorem write_maxTaskTime {P : PriorityQueue} (lb : LoadBalancer P) (lines : List LogLine) :
    (lb.write lines).maxTaskTime = lb.maxTaskTime := by
  unfold LoadBalancer.write
  split <;> rfl

theorem write_logFile {P : PriorityQueue} (lb : LoadBalancer P) (lines : List LogLine)
    (h : lb.logOpen = true) : (lb.write lines).logFile = lb.logFile ++ lines := by
  simp [LoadBalancer.write, h]

@[simp]
theorem write_taskRange {P : PriorityQueue} (lb : LoadBalancer P) (lines : List LogLine) :
    (lb.write lines).taskRange = lb.taskRange := by
  simp [LoadBalancer.taskRange]

@[simp]
theorem addRandomRequests_logOpen {P : PriorityQueue} (rand : Nat → Nat)
    (lb : LoadBalancer P) : (lb.addRandomRequests rand).logOpen = lb.logOpen := by
  unfold LoadBalancer.addRandomRequests
  split
  · simp
  · rfl

@[simp]
theorem addRandomRequests_minTaskTime {P : PriorityQueue} (rand : Nat → Nat)
    (lb : LoadBalancer P) : (lb.addRandomRequests rand).minTaskTime = lb.minTaskTime := by
  unfold LoadBalancer.addRandomRequests
  split
  · simp
  · rfl

@[simp]
theorem addRandomRequests_maxTaskTime {P : PriorityQueue} (rand : Nat → Nat)
    (lb : LoadBalancer P) : (lb.addRandomRequests rand).maxTaskTime = lb.maxTaskTime := by
  unfold LoadBalancer.addRandomRequests
  split
  · simp
  · rfl

theorem distributeRequests_fields {P : PriorityQueue} (lb lb' : LoadBalancer P)
    (offers : List Offer) (h : lb.distributeRequests = some (lb', offers)) :
    lb'.logOpen = lb.logOpen ∧ lb'.logFile = lb.logFile ∧
    lb'.minTaskTime = lb.minTaskTime ∧ lb'.maxTaskTime = lb.maxTaskTime := by
  unfold LoadBalancer.distributeRequests at h
  rw [distributeRequests_some lb lb' offers h] at h
  simp only [Option.some.injEq, Prod.mk.injEq] at h
  rw [← h.1]
  exact ⟨rfl, rfl, rfl, rfl⟩

theorem round_unfold {P : PriorityQueue} (rand : Nat → Nat) (lb lb' : LoadBalancer P)
    (currentTime : Int) (h : lb.round rand currentTime = some lb') :
    ∃ (lb2 : LoadBalancer P) (offers : List Offer),
      ((lb.addRandomRequests rand).write
        [LogLine.timeHeader currentTime lb.requestQueue.length]).distributeRequests =
          some (lb2, offers) ∧
      lb' =
        if (currentTime + 1) % 10 = 0 then
          ((lb2.advanceAll.1.logCycleInfo currentTime lb.requestQueue.length
            lb2.advanceAll.1.requestQueue.length).write
              [LogLine.activeServers lb2.advanceAll.2.1 lb2.advanceAll.2.2]).resetTaskTimeRange
        else
          (lb2.advanceAll.1.logCycleInfo currentTime lb.requestQueue.length
            lb2.advanceAll.1.requestQueue.length).write
              [LogLine.activeServers lb2.advanceAll.2.1 lb2.advanceAll.2.2] := by
  unfold LoadBalancer.round at h
  simp only at h
  cases hd : ((lb.addRandomRequests rand).write
      [LogLine.timeHeader currentTime lb.requestQueue.length]).distributeRequests with
  | none => rw [hd] at h; exact absurd h (by simp)
  | some r =>
    obtain ⟨lb2, offers⟩ := r
    rw [hd] at h
    simp only [Option.some.injEq] at h
    exact ⟨lb2, offers, rfl, h.symm⟩

theorem rounds_succ_last {P : PriorityQueue} (rand : Nat → Nat) (n : Nat) :
    ∀ (currentTime : Int) (lb : LoadBalancer P),
      LoadBalancer.rounds rand (n + 1) currentTime lb =
        match LoadBalancer.rounds rand n currentTime lb with
        | none => none
        | some lb1 => lb1.round rand (currentTime + n) := by
  induction n with
  | zero =>
    intro t lb
    simp only [LoadBalancer.rounds, Nat.cast_zero, add_zero]
    cases lb.round rand t <;> rfl
  | succ n ih =>
    intro t lb
    rw [LoadBalancer.rounds]
    cases hr : lb.round rand t with
    | none => simp [LoadBalancer.rounds, hr]
    | some lb1 =>
      simp only
      rw [ih (t + 1) lb1]
      conv_rhs => rw [LoadBalancer.rounds]
      simp only [hr]
      have : t + 1 + (n : Int) = t + ((n + 1 : Nat) : Int) := by push_cast; ring
      rw [this]

/-! ## The loop that advances every server: the counters -/

theorem advanceLoop_counts (P : PriorityQueue) (fuel : Nat) :
    ∀ a : Advance P, P.size a.serverQueue ≤ fuel →
      (advanceLoop P fuel a).activeServers = a.activeServers +
        (((P.toList a.serverQueue).map fun w => w.processJobs.1).countP
          WebServer.isActive : Nat) ∧
      (advanceLoop P fuel a).inactiveServers = a.inactiveServers +
        (((P.toList a.serverQueue).map fun w => w.processJobs.1).countP
          (fun w => !w.isActive) : Nat) := by
  induction fuel with
  | zero =>
    intro a h
    have hnil : P.toList a.serverQueue = [] :=
      List.length_eq_zero.mp (Nat.le_zero.mp h)
    simp [advanceLoop, hnil]
  | succ n ih =>
    intro a h
    cases ht : P.top a.serverQueue with
    | none =>
      have hnil := (P.top_none a.serverQueue).mp ht
      simp [advanceLoop, ht, hnil]
    | some t =>
      have hpop := P.pop_perm a.serverQueue t ht
      have hlen : P.size (P.pop a.serverQueue) ≤ n := by
        have := hpop.length_eq
        simp only [PriorityQueue.size, List.length_cons] at this h ⊢
        omega
      simp only [advanceLoop, ht]
      obtain ⟨h1, h2⟩ := ih
        { serverQueue := P.pop a.serverQueue,
          servers := a.servers ++ [t.processJobs.1],
          activeServers :=
            if t.processJobs.1.isActive then a.activeServers + 1 else a.activeServers,
          inactiveServers :=
            if t.processJobs.1.isActive then a.inactiveServers else a.inactiveServers + 1,
          output := a.output ++ t.processJobs.2 } hlen
      have hmap := hpop.map fun w => w.processJobs.1
      have c1 := hmap.countP_eq WebServer.isActive
      have c2 := hmap.countP_eq fun w => !w.isActive
      rw [h1, h2, c1, c2]
      simp only [List.map_cons, List.countP_cons]
      by_cases hact : t.processJobs.1.isActive = true
      · simp only [hact, if_true, Bool.not_true, Bool.false_eq_true, if_false]
        constructor <;> push_cast <;> ring
      · have hact2 : t.processJobs.1.isActive = false := by simpa using hact
        simp only [hact2, Bool.false_eq_true, if_false, Bool.not_false, if_true]
        constructor <;> push_cast <;> ring

/-- C13: the advance step of a round, for every state: the pool afterwards consists of
the servers of the pool before, each after one call of `processJobs` (so with the same
ids and capacities, none added and none dropped); `activeServers` is the number of
servers of the new pool with a non-empty queue and `inactiveServers` the number with an
empty queue, and their sum is the number of servers. Every round of `go` that returns
ends with the pool of this step applied to the state that `distributeRequests` left, and
writes these two counters as the last line of the round to an open log file. -/
theorem advanceAll_counts (P : PriorityQueue) (lb : LoadBalancer P) :
    (P.toList lb.advanceAll.1.serverQueue).Perm
      ((P.toList lb.serverQueue).map fun w => w.processJobs.1) ∧
    ((P.toList lb.advanceAll.1.serverQueue).map fun w => (w.id, w.maxQueueSize)).Perm
      ((P.toList lb.serverQueue).map fun w => (w.id, w.maxQueueSize)) ∧
    lb.advanceAll.2.1 =
      ((P.toList lb.advanceAll.1.serverQueue).countP fun w => !w.jobQueue.isEmpty : Nat) ∧
    lb.advanceAll.2.2 =
      ((P.toList lb.advanceAll.1.serverQueue).countP fun w => w.jobQueue.isEmpty : Nat) ∧
    lb.advanceAll.2.1 + lb.advanceAll.2.2 = (P.size lb.serverQueue : Nat) ∧
    (∀ w : WebServer, w.isActive = true ↔ w.jobQueue ≠ []) ∧
    (∀ (rand : Nat → Nat) (currentTime : Int) (lb0 lb' : LoadBalancer P),
      lb0.round rand currentTime = some lb' →
      ∃ (lb2 : LoadBalancer P) (offers : List Offer),
        ((lb0.addRandomRequests rand).write
          [LogLine.timeHeader currentTime lb0.requestQueue.length]).distributeRequests =
            some (lb2, offers) ∧
        lb'.serverQueue = lb2.advanceAll.1.serverQueue ∧
        (lb0.logOpen = true → lb'.logFile.getLast? =
          some (LogLine.activeServers lb2.advanceAll.2.1 lb2.advanceAll.2.2))) := by
  have hpool := advanceAll_pool lb
  obtain ⟨hc1, hc2⟩ := advanceLoop_counts P (P.size lb.serverQueue)
    { serverQueue := lb.serverQueue, servers := [], activeServers := 0,
      inactiveServers := 0, output := [] } (Nat.le_refl _)
  have ha : lb.advanceAll.2.1 =
      ((P.toList lb.advanceAll.1.serverQueue).countP fun w => !w.jobQueue.isEmpty : Nat) := by
    have e : lb.advanceAll.2.1 = (0 : Int) +
        (((P.toList lb.serverQueue).map fun w => w.processJobs.1).countP
          WebServer.isActive : Nat) := hc1
    rw [e, zero_add, ← hpool.countP_eq WebServer.isActive]
    rfl
  have hi : lb.advanceAll.2.2 =
      ((P.toList lb.advanceAll.1.serverQueue).countP fun w => w.jobQueue.isEmpty : Nat) := by
    have e : lb.advanceAll.2.2 = (0 : Int) +
        (((P.toList lb.serverQueue).map fun w => w.processJobs.1).countP
          (fun w => !w.isActive) : Nat) := hc2
    rw [e, zero_add, ← hpool.countP_eq fun w => !w.isActive]
    simp [WebServer.isActive]
  refine ⟨hpool, ?_, ha, hi, ?_, ?_, ?_⟩
  · have := hpool.map fun w => (w.id, w.maxQueueSize)
    simpa [List.map_map, Function.comp_def, processJobs_id, processJobs_maxQueueSize]
      using this
  · rw [ha, hi]
    have hlen := hpool.length_eq
    simp only [List.length_map] at hlen
    have hsum := List.length_eq_countP_add_countP (fun w : WebServer => !w.jobQueue.isEmpty)
      (P.toList lb.advanceAll.1.serverQueue)
    have hfun : (fun a : WebServer => decide ¬((!a.jobQueue.isEmpty) = true)) =
        fun w => w.jobQueue.isEmpty := by
      funext a
      cases a.jobQueue.isEmpty <;> simp
    rw [hfun] at hsum
    simp only [PriorityQueue.size]
    rw [← hlen, hsum]
    push_cast
    rfl
  · intro w
    cases hq : w.jobQueue <;> simp [WebServer.isActive, hq]
  · intro rand t lb0 lb' h
    obtain ⟨lb2, offers, hd, heq⟩ := round_unfold rand lb0 lb' t h
    refine ⟨lb2, offers, hd, ?_, ?_⟩
    · rw [heq]
      split <;> simp
    · intro hopen
      have hopen2 : lb2.logOpen = true := by
        rw [(distributeRequests_fields _ _ _ hd).1]
        simpa using hopen
      have hopen3 : (lb2.advanceAll.1.logCycleInfo t lb0.requestQueue.length
          lb2.advanceAll.1.requestQueue.length).logOpen = true := by
        simp only [LoadBalancer.logCycleInfo, write_logOpen]
        exact hopen2
      rw [heq]
      split
      · show ((lb2.advanceAll.1.logCycleInfo t lb0.requestQueue.length
          lb2.advanceAll.1.requestQueue.length).write _).logFile.getLast? = _
        rw [write_logFile _ _ hopen3]
        simp
      · rw [write_logFile _ _ hopen3]
        simp

theorem advanceAll_counts_witness :
    ∃ (lb2 : LoadBalancer listQueue) (offers : List Offer),
      (exampleBalancer idlePool [jobA, jobB, jobC]).distributeRequests = some (lb2, offers) ∧
      lb2.advanceAll.2.1 = 2 ∧ lb2.advanceAll.2.2 = 1 ∧
      (listQueue.toList lb2.advanceAll.1.serverQueue).map WebServer.id = [1, 0, 2] ∧
      lb2.advanceAll.2.1 + lb2.advanceAll.2.2 = (listQueue.size lb2.serverQueue : Nat) :=
  ⟨_, _, rfl, rfl, rfl, rfl, (advanceAll_counts listQueue _).2.2.2.2.1⟩

/-! ## The periodic reset of the task-time window -/

theorem round_window {P : PriorityQueue} (rand : Nat → Nat) (lb lb' : LoadBalancer P)
    (currentTime : Int) (h : lb.round rand currentTime = some lb') :
    ((currentTime + 1) % 10 = 0 → lb'.minTaskTime = intMax ∧ lb'.maxTaskTime = intMin) ∧
    (¬ (currentTime + 1) % 10 = 0 →
      lb'.minTaskTime = lb.minTaskTime ∧ lb'.maxTaskTime = lb.maxTaskTime) ∧
    (lb.logOpen = true → ∃ (lines : List LogLine) (e a i : Int),
      lb'.logFile = lb.logFile ++ lines ++
        [LogLine.timeHeader currentTime lb.requestQueue.length,
         LogLine.cycleInfo lb.requestQueue.length e lb.taskRange,
         LogLine.activeServers a i]) := by
  obtain ⟨lb2, offers, hd, heq⟩ := round_unfold rand lb lb' currentTime h
  obtain ⟨f1, f2, f3, f4⟩ := distributeRequests_fields _ _ _ hd
  simp only [write_logOpen, addRandomRequests_logOpen, write_minTaskTime,
    addRandomRequests_minTaskTime, write_maxTaskTime, addRandomRequests_maxTaskTime] at f1 f3 f4
  have hmin : lb2.advanceAll.1.minTaskTime = lb.minTaskTime := f3
  have hmax : lb2.advanceAll.1.maxTaskTime = lb.maxTaskTime := f4
  have hrange : lb2.advanceAll.1.taskRange = lb.taskRange := by
    simp only [LoadBalancer.taskRange, hmin, hmax]
  refine ⟨?_, ?_, ?_⟩
  · intro ht
    rw [heq, if_pos ht]
    exact ⟨rfl, rfl⟩
  · intro ht
    rw [heq, if_neg ht]
    simp only [LoadBalancer.logCycleInfo, write_minTaskTime, write_maxTaskTime]
    exact ⟨hmin, hmax⟩
  · intro hopen
    have hopen2 : lb2.advanceAll.1.logOpen = true := by
      show lb2.logOpen = true
      rw [f1]; exact hopen
    have hlog2 : lb2.advanceAll.1.logFile =
        ((lb.addRandomRequests rand).write
          [LogLine.timeHeader currentTime lb.requestQueue.length]).logFile := f2
    have hlog1 : ∃ lines, (lb.addRandomRequests rand).logFile = lb.logFile ++ lines := by
      unfold LoadBalancer.addRandomRequests
      split
      · exact ⟨_, write_logFile lb _ hopen⟩
      · exact ⟨[], by simp⟩
    obtain ⟨lines, hlines⟩ := hlog1
    rw [write_logFile _ _ (by simpa using hopen), hlines] at hlog2
    have hfile : ((lb2.advanceAll.1.logCycleInfo currentTime lb.requestQueue.length
        lb2.advanceAll.1.requestQueue.length).write
          [LogLine.activeServers lb2.advanceAll.2.1 lb2.advanceAll.2.2]).logFile =
        lb.logFile ++ lines ++
          [LogLine.timeHeader currentTime lb.requestQueue.length,
           LogLine.cycleInfo lb.requestQueue.length lb2.advanceAll.1.requestQueue.length
             lb.taskRange,
           LogLine.activeServers lb2.advanceAll.2.1 lb2.advanceAll.2.2] := by
      rw [write_logFile _ _ (by simpa [LoadBalancer.logCycleInfo] using hopen2)]
      simp only [LoadBalancer.logCycleInfo]
      rw [write_logFile _ _ hopen2, hlog2, hrange]
      simp
    refine ⟨lines, lb2.advanceAll.1.requestQueue.length, lb2.advanceAll.2.1,
      lb2.advanceAll.2.2, ?_⟩
    rw [heq]
    split
    · exact hfile
    · exact hfile

/-- C15: a round of `go` for a `currentTime` with `(currentTime + 1) % 10 = 0` that returns
ends with `minTaskTime` at the largest `int` and `maxTaskTime` at the smallest `int`, so
that `logCycleInfo` would print `[No tasks]`; in particular for a run that starts at
`currentTime = 0` this is the state after 10 rounds. The round after such a round writes
`[No tasks]` in its cycle line (nothing in a round changes the two members before
`logCycleInfo`). -/
theorem window_cleared_every_tenth_round (P : PriorityQueue) (rand : Nat → Nat)
    (lb lb' : LoadBalancer P) (currentTime : Int)
    (h : lb.round rand currentTime = some lb') (ht : (currentTime + 1) % 10 = 0) :
    (lb'.minTaskTime = intMax ∧ lb'.maxTaskTime = intMin ∧
      lb'.taskRange = TaskRange.noTasks) ∧
    (∀ (lb0 lb10 : LoadBalancer P), LoadBalancer.rounds rand 10 0 lb0 = some lb10 →
      lb10.minTaskTime = intMax ∧ lb10.maxTaskTime = intMin ∧
      lb10.taskRange = TaskRange.noTasks) ∧
    (∀ (next : LoadBalancer P), lb'.round rand (currentTime + 1) = some next →
      lb'.logOpen = true → ∃ (lines : List LogLine) (e a i : Int),
        next.logFile = lb'.logFile ++ lines ++
          [LogLine.timeHeader (currentTime + 1) lb'.requestQueue.length,
           LogLine.cycleInfo lb'.requestQueue.length e TaskRange.noTasks,
           LogLine.activeServers a i]) := by
  have hw := (round_window rand lb lb' currentTime h).1 ht
  have hr : lb'.taskRange = TaskRange.noTasks := by
    simp [LoadBalancer.taskRange, hw.1]
  refine ⟨⟨hw.1, hw.2, hr⟩, ?_, ?_⟩
  · intro lb0 lb10 h10
    rw [rounds_succ_last rand 9 0 lb0] at h10
    cases h9 : LoadBalancer.rounds rand 9 0 lb0 with
    | none => rw [h9] at h10; exact absurd h10 (by simp)
    | some lb9 =>
      rw [h9] at h10
      have hw10 := (round_window rand lb9 lb10 _ h10).1 (by norm_num)
      exact ⟨hw10.1, hw10.2, by simp [LoadBalancer.taskRange, hw10.1]⟩
  · intro next hn hopen
    have hlog := (round_window rand lb' next (currentTime + 1) hn).2.2 hopen
    rw [hr] at hlog
    exact hlog

theorem window_cleared_every_tenth_round_witness :
    ∃ (lb' : LoadBalancer listQueue),
      (exampleBalancer idlePool [jobA, jobB, jobC]).round (fun _ => 1) 9 = some lb' ∧
      lb'.minTaskTime = intMax ∧ lb'.maxTaskTime = intMin ∧
      lb'.taskRange = TaskRange.noTasks :=
  ⟨_, rfl,
    (window_cleared_every_tenth_round listQueue (fun _ => 1)
      (exampleBalancer idlePool [jobA, jobB, jobC]) _ 9 rfl (by decide)).1⟩

/-! ## Construction and the number of rounds -/

theorem idle_canAcceptRequest (w : WebServer) (h : w.Idle) : w.canAcceptRequest = true := by
  obtain ⟨hq, _, h1, h2⟩ := h
  rw [canAcceptRequest_iff, hq]
  have := toSizeT_of_lt w.maxQueueSize (by omega) (by unfold intMax at h2; omega)
  simp only [List.length_nil]
  omega

theorem idle_addRequest (w : WebServer) (h : w.Idle) (j : Request) :
    (w.addRequest j).1 = { w with jobQueue := [j], currentLoad := j.processingTime } := by
  rw [addRequest_fst_of_accept w j (idle_canAcceptRequest w h)]
  obtain ⟨hq, hl, _, _⟩ := h
  simp [hq, hl, intAdd_zero_left]

theorem idle_processJobs (w : WebServer) (h : w.Idle) : w.processJobs.1 = w := by
  rw [processJobs_nil w h.1]

theorem idle_addRequest_processJobs (w : WebServer) (h : w.Idle) (j : Request)
    (hj : 1 ≤ j.processingTime) :
    (w.addRequest j).1.processJobs.1 =
      { w with currentLoad := j.processingTime - 1,
               jobQueue := if j.processingTime = 1 then []
                 else [{ j with processingTime := j.processingTime - 1 }] } := by
  rw [idle_addRequest w h j]
  unfold WebServer.processJobs
  have h0 : j.processingTime > 0 := by omega
  have hc : ¬ (j.processingTime - 1 < 0) := by omega
  by_cases h1 : j.processingTime = 1
  · have h2 : j.processingTime - 1 ≤ 0 := by omega
    simp [h0, hc, h1, h2]
  · have h2 : ¬ (j.processingTime - 1 ≤ 0) := by omega
    simp [h0, hc, h1, h2]

theorem distributeLoop_idle (P : PriorityQueue) (rq : List Request) :
    ∀ (q : P.Q) (temp : List Request) (offers : List Offer)
      (r : P.Q × List Request × List Offer) (busy idle : List WebServer),
      (P.toList q).Perm (busy ++ idle) → (∀ w ∈ idle, w.Idle) →
      (∀ w ∈ busy, 1 ≤ w.currentLoad) → rq.length ≤ idle.length →
      (∀ j ∈ rq, 1 ≤ j.processingTime) →
      distributeLoop P rq q temp offers = some r →
      ∃ ws rest : List WebServer, idle.Perm (ws ++ rest) ∧ ws.length = rq.length ∧
        (P.toList r.1).Perm
          (busy ++ (List.zipWith (fun w j => (w.addRequest j).1) ws rq ++ rest)) ∧
        r.2.1 = temp := by
  induction rq with
  | nil =>
    intro q temp offers r busy idle hq _ _ _ _ h
    simp only [distributeLoop, Option.some.injEq] at h
    subst h
    exact ⟨[], idle, by simp, rfl, by simpa using hq, rfl⟩
  | cons j rq ih =>
    intro q temp offers r busy idle hq hidle hbusy hlen hwork h
    cases ht : P.top q with
    | none =>
      rw [distributeLoop_empty_pool P j rq q temp offers ((P.top_none q).mp ht)] at h
      exact absurd h (by simp)
    | some t =>
      have htq := top_mem P q t ht
      obtain ⟨w0, hw0⟩ : ∃ w0, w0 ∈ idle := by
        cases idle with
        | nil => simp at hlen
        | cons a l => exact ⟨a, List.mem_cons_self _ _⟩
      have hle : t.currentLoad ≤ 0 := by
        have := top_load_le P q t ht w0
          (hq.symm.subset (List.mem_append_right _ hw0))
        rw [(hidle w0 hw0).2.1] at this
        exact this
      have htidle : t ∈ idle := by
        rcases List.mem_append.mp (hq.subset htq) with hb | hi
        · have := hbusy t hb
          omega
        · exact hi
      have hti := hidle t htidle
      obtain ⟨s, u, hsu⟩ := List.append_of_mem htidle
      have hidle2 : idle.Perm (t :: (s ++ u)) := by
        rw [hsu]
        exact List.perm_middle
      have hpop : (P.toList (P.pop q)).Perm (busy ++ (s ++ u)) := by
        have e1 : (t :: P.toList (P.pop q)).Perm (busy ++ t :: (s ++ u)) :=
          ((P.pop_perm q t ht).symm.trans hq).trans (hidle2.append_left busy)
        exact (e1.trans List.perm_middle).cons_inv
      rw [distributeLoop_accept P j rq q temp offers t ht (idle_canAcceptRequest t hti)] at h
      have hq2 : (P.toList (P.push (P.pop q) (t.addRequest j).1)).Perm
          ((busy ++ [(t.addRequest j).1]) ++ (s ++ u)) := by
        have e1 := (P.push_perm (P.pop q) (t.addRequest j).1).trans (hpop.cons _)
        refine e1.trans ?_
        simp only [List.append_assoc, List.singleton_append]
        exact List.perm_middle.symm
      have hidle3 : ∀ w ∈ s ++ u, w.Idle :=
        fun w hw => hidle w (hidle2.symm.subset (List.mem_cons_of_mem _ hw))
      have hbusy2 : ∀ w ∈ busy ++ [(t.addRequest j).1], 1 ≤ w.currentLoad := by
        intro w hw
        rcases List.mem_append.mp hw with hb | hn
        · exact hbusy w hb
        · rw [List.mem_singleton.mp hn, idle_addRequest t hti j]
          exact hwork j (List.mem_cons_self _ _)
      have hlen2 : rq.length ≤ (s ++ u).length := by
        have := hidle2.length_eq
        simp only [List.length_cons] at this hlen
        omega
      obtain ⟨ws, rest, h1, h2, h3, h4⟩ := ih _ _ _ r _ _ hq2 hidle3 hbusy2 hlen2
        (fun x hx => hwork x (List.mem_cons_of_mem _ hx)) h
      refine ⟨t :: ws, rest, hidle2.trans (h1.cons t), by simp [h2], ?_, h4⟩
      refine h3.trans ?_
      simp only [List.zipWith_cons_cons, List.append_assoc, List.singleton_append,
        List.cons_append]
      exact List.Perm.refl _

theorem zipWith_idle_addRequest (ws : List WebServer) :
    ∀ rq : List Request, (∀ w ∈ ws, w.Idle) →
      List.zipWith (fun w j => (w.addRequest j).1) ws rq =
        List.zipWith (fun w j =>
          ({ w with jobQueue := [j], currentLoad := j.processingTime } : WebServer)) ws rq := by
  induction ws with
  | nil => intro rq _; simp
  | cons w ws ih =>
    intro rq h
    cases rq with
    | nil => simp
    | cons j rq =>
      simp only [List.zipWith_cons_cons]
      rw [idle_addRequest w (h w (List.mem_cons_self _ _)) j,
        ih rq (fun x hx => h x (List.mem_cons_of_mem _ hx))]

theorem zipWith_idle_tick (ws : List WebServer) :
    ∀ rq : List Request, (∀ w ∈ ws, w.Idle) → (∀ j ∈ rq, 1 ≤ j.processingTime) →
      (List.zipWith (fun w j => (w.addRequest j).1) ws rq).map (fun w => w.processJobs.1) =
        List.zipWith (fun w j =>
          ({ w with currentLoad := j.processingTime - 1,
                    jobQueue := if j.processingTime = 1 then []
                      else [{ j with processingTime := j.processingTime - 1 }] } : WebServer))
          ws rq := by
  induction ws with
  | nil => intro rq _ _; simp
  | cons w ws ih =>
    intro rq h hw
    cases rq with
    | nil => simp
    | cons j rq =>
      simp only [List.zipWith_cons_cons, List.map_cons]
      rw [idle_addRequest_processJobs w (h w (List.mem_cons_self _ _)) j
          (hw j (List.mem_cons_self _ _)),
        ih rq (fun x hx => h x (List.mem_cons_of_mem _ hx))
          (fun x hx => hw x (List.mem_cons_of_mem _ hx))]

theorem map_idle_processJobs (l : List WebServer) (h : ∀ w ∈ l, w.Idle) :
    l.map (fun w => w.processJobs.1) = l := by
  induction l with
  | nil => rfl
  | cons w l ih =>
    simp only [List.map_cons]
    rw [idle_processJobs w (h w (List.mem_cons_self _ _)),
      ih (fun x hx => h x (List.mem_cons_of_mem _ hx))]

theorem zipWith_tick_loads (ws : List WebServer) :
    ∀ rq : List Request, ws.length = rq.length →
      (List.zipWith (fun w j =>
          ({ w with currentLoad := j.processingTime - 1,
                    jobQueue := if j.processingTime = 1 then []
                      else [{ j with processingTime := j.processingTime - 1 }] } : WebServer))
          ws rq).map WebServer.currentLoad = rq.map fun j => j.processingTime - 1 := by
  induction ws with
  | nil =>
    intro rq h
    cases rq with
    | nil => rfl
    | cons j rq => simp at h
  | cons w ws ih =>
    intro rq h
    cases rq with
    | nil => simp at h
    | cons j rq =>
      simp only [List.zipWith_cons_cons, List.map_cons]
      rw [ih rq (by simpa using h)]

theorem map_idle_loads (l : List WebServer) (h : ∀ w ∈ l, w.Idle) :
    l.map WebServer.currentLoad = List.replicate l.length 0 := by
  induction l with
  | nil => rfl
  | cons w l ih =>
    simp only [List.map_cons, List.length_cons, List.replicate_succ]
    rw [(h w (List.mem_cons_self _ _)).2.1, ih (fun x hx => h x (List.mem_cons_of_mem _ hx))]

theorem distributeRequests_idle {P : PriorityQueue} (lb lb' : LoadBalancer P)
    (offers : List Offer) (hr : lb.distributeRequests = some (lb', offers))
    (hidle : ∀ w ∈ P.toList lb.serverQueue, w.Idle)
    (hm : lb.requestQueue.length ≤ P.size lb.serverQueue)
    (hwork : ∀ j ∈ lb.requestQueue, 1 ≤ j.processingTime) :
    ∃ ws rest : List WebServer,
      lb'.requestQueue = [] ∧
      (P.toList lb.serverQueue).Perm (ws ++ rest) ∧
      ws.length = lb.requestQueue.length ∧
      (P.toList lb'.serverQueue).Perm
        (List.zipWith (fun w j =>
          ({ w with jobQueue := [j], currentLoad := j.processingTime } : WebServer))
          ws lb.requestQueue ++ rest) ∧
      (P.toList lb'.advanceAll.1.serverQueue).Perm
        (List.zipWith (fun w j =>
          ({ w with currentLoad := j.processingTime - 1,
                    jobQueue := if j.processingTime = 1 then []
                      else [{ j with processingTime := j.processingTime - 1 }] } : WebServer))
          ws lb.requestQueue ++ rest) := by
  obtain ⟨ws, rest, h1, h2, h3, h4⟩ := distributeLoop_idle P _ _ _ _ _ [] _
    (by simp) hidle (by simp) hm hwork (distributeRequests_some lb lb' offers hr)
  have hws : ∀ w ∈ ws, w.Idle :=
    fun w hw => hidle w (h1.symm.subset (List.mem_append_left _ hw))
  have hrest : ∀ w ∈ rest, w.Idle :=
    fun w hw => hidle w (h1.symm.subset (List.mem_append_right _ hw))
  simp only [List.nil_append] at h3
  refine ⟨ws, rest, h4, h1, h2, ?_, ?_⟩
  · rw [← zipWith_idle_addRequest ws _ hws]
    exact h3
  · have e := (advanceAll_pool lb').trans (h3.map fun w => w.processJobs.1)
    rw [List.map_append, zipWith_idle_tick ws _ hws hwork, map_idle_processJobs rest hrest] at e
    exact e

/-- C11: if every server of the pool is idle (empty queue, load 0, capacity at least 1) and
`requestQueue` holds at most as many requests as there are servers, each with
`processingTime ≥ 1`, then `distributeRequests` returns with an empty `requestQueue`, and
there are as many servers `ws` of the pool as there were requests such that the new pool is
these servers, each holding exactly one request (the requests in order) with its
`processingTime` as load, and the remaining servers unchanged. After the advance step of
the round each of the servers `ws` has load `processingTime - 1` and an empty queue if its
request had `processingTime = 1` (else the request with `processingTime - 1`), so the
loads of the pool are the values `processingTime - 1` of the requests and 0 for the
other servers. -/
theorem distributeRequests_idle_pool (P : PriorityQueue) (lb : LoadBalancer P)
    (hidle : ∀ w ∈ P.toList lb.serverQueue, w.Idle)
    (hm : lb.requestQueue.length ≤ (P.toList lb.serverQueue).length)
    (hwork : ∀ j ∈ lb.requestQueue, 1 ≤ j.processingTime) :
    ∃ (lb' : LoadBalancer P) (offers : List Offer) (ws rest : List WebServer),
      lb.distributeRequests = some (lb', offers) ∧
      lb'.requestQueue = [] ∧
      (P.toList lb.serverQueue).Perm (ws ++ rest) ∧
      ws.length = lb.requestQueue.length ∧
      (P.toList lb'.serverQueue).Perm
        (List.zipWith (fun w j =>
          ({ w with jobQueue := [j], currentLoad := j.processingTime } : WebServer))
          ws lb.requestQueue ++ rest) ∧
      (P.toList lb'.advanceAll.1.serverQueue).Perm
        (List.zipWith (fun w j =>
          ({ w with currentLoad := j.processingTime - 1,
                    jobQueue := if j.processingTime = 1 then []
                      else [{ j with processingTime := j.processingTime - 1 }] } : WebServer))
          ws lb.requestQueue ++ rest) ∧
      ((P.toList lb'.advanceAll.1.serverQueue).map WebServer.currentLoad).Perm
        ((lb.requestQueue.map fun j => j.processingTime - 1) ++
          List.replicate ((P.toList lb.serverQueue).length - lb.requestQueue.length) 0) := by
  have hsome : ∃ r, lb.distributeRequests = some r := by
    rw [distributeRequests_isSome_iff]
    cases hp : P.toList lb.serverQueue with
    | nil =>
      right
      rw [hp] at hm
      exact List.length_eq_zero.mp (Nat.le_zero.mp hm)
    | cons a l => left; simp
  obtain ⟨⟨lb', offers⟩, hr⟩ := hsome
  obtain ⟨ws, rest, h1, h2, h3, h4, h5⟩ := distributeRequests_idle lb lb' offers hr hidle hm hwork
  refine ⟨lb', offers, ws, rest, hr, h1, h2, h3, h4, h5, ?_⟩
  have hrest : ∀ w ∈ rest, w.Idle :=
    fun w hw => hidle w (h2.symm.subset (List.mem_append_right _ hw))
  have e := h5.map WebServer.currentLoad
  rw [List.map_append, zipWith_tick_loads ws _ h3, map_idle_loads rest hrest] at e
  have hlen : rest.length = (P.toList lb.serverQueue).length - lb.requestQueue.length := by
    have := h2.length_eq
    simp only [List.length_append] at this
    omega
  rw [hlen] at e
  exact e

theorem distributeRequests_idle_pool_witness :
    (∃ (lb' : LoadBalancer listQueue) (offers : List Offer),
      (exampleBalancer idlePool [jobA, jobB, jobC]).distributeRequests = some (lb', offers) ∧
      lb'.requestQueue = [] ∧
      listQueue.toList lb'.serverQueue =
        [⟨0, 3, [jobA], 2⟩, ⟨1, 1, [jobB], 2⟩, ⟨2, 5, [jobC], 2⟩] ∧
      listQueue.toList lb'.advanceAll.1.serverQueue =
        [⟨1, 0, [], 2⟩, ⟨0, 2, [{ jobA with processingTime := 2 }], 2⟩,
         ⟨2, 4, [{ jobC with processingTime := 4 }], 2⟩]) ∧
    ∃ (lb' : LoadBalancer listQueue) (offers : List Offer) (ws rest : List WebServer),
      (exampleBalancer idlePool [jobA, jobB, jobC]).distributeRequests = some (lb', offers) ∧
      lb'.requestQueue = [] ∧
      (listQueue.toList (exampleBalancer idlePool [jobA, jobB, jobC]).serverQueue).Perm
        (ws ++ rest) ∧
      ws.length = (exampleBalancer idlePool [jobA, jobB, jobC]).requestQueue.length ∧
      (listQueue.toList lb'.serverQueue).Perm
        (List.zipWith (fun w j =>
          ({ w with jobQueue := [j], currentLoad := j.processingTime } : WebServer))
          ws (exampleBalancer idlePool [jobA, jobB, jobC]).requestQueue ++ rest) ∧
      (listQueue.toList lb'.advanceAll.1.serverQueue).Perm
        (List.zipWith (fun w j =>
          ({ w with currentLoad := j.processingTime - 1,
                    jobQueue := if j.processingTime = 1 then []
                      else [{ j with processingTime := j.processingTime - 1 }] } : WebServer))
          ws (exampleBalancer idlePool [jobA, jobB, jobC]).requestQueue ++ rest) ∧
      ((listQueue.toList lb'.advanceAll.1.serverQueue).map WebServer.currentLoad).Perm
        (((exampleBalancer idlePool [jobA, jobB, jobC]).requestQueue.map
            fun j => j.processingTime - 1) ++
          List.replicate
            ((listQueue.toList (exampleBalancer idlePool [jobA, jobB, jobC]).serverQueue).length -
              (exampleBalancer idlePool [jobA, jobB, jobC]).requestQueue.length) 0) :=
  ⟨⟨_, _, rfl, rfl, rfl, rfl⟩,
    distributeRequests_idle_pool listQueue (exampleBalancer idlePool [jobA, jobB, jobC])
      (by
        intro w hw
        have hw2 : w ∈ idlePool := hw
        simp only [idlePool, List.mem_cons, List.mem_singleton, List.not_mem_nil,
          or_false] at hw2
        rcases hw2 with rfl | rfl | rfl <;> decide)
      (by decide)
      (by
        intro j hj
        have hj2 : j ∈ [jobA, jobB, jobC] := hj
        simp only [List.mem_cons, List.mem_singleton, List.not_mem_nil, or_false] at hj2
        rcases hj2 with rfl | rfl | rfl <;> decide)⟩

/-- C19: let `requestQueue` hold exactly one request `job` with `processingTime ≥ 1` (the
state of a round after the request arrived) and let every server of the pool be idle (empty
queue, load 0, capacity at least 1). Whenever `distributeRequests` returns, `requestQueue`
is empty after it and after the advance step, one server `w` of the pool holds `job`
after the distribution and has, after the advance step, load `processingTime - 1` and the
request with `processingTime - 1` in its queue, or an empty queue when `processingTime = 1`
(the server is idle again), and the other servers are idle as before.
`distributeRequests` returns when the pool is not empty. If the state is the one a round of
`go` reaches by `addRandomRequests` from a state with an empty `requestQueue`, the round
ends with this `requestQueue` and this pool. -/
theorem same_tick_start (P : PriorityQueue) (lb1 : LoadBalancer P) (job : Request)
    (h1 : lb1.requestQueue = [job]) (hidle : ∀ w ∈ P.toList lb1.serverQueue, w.Idle)
    (hk : 1 ≤ job.processingTime) :
    (∀ (lb2 : LoadBalancer P) (offers : List Offer),
      lb1.distributeRequests = some (lb2, offers) →
        lb2.requestQueue = [] ∧ lb2.advanceAll.1.requestQueue = [] ∧
        ∃ (w : WebServer) (rest : List WebServer),
          (P.toList lb1.serverQueue).Perm (w :: rest) ∧
          (∀ x ∈ rest, x.Idle) ∧
          (P.toList lb2.serverQueue).Perm
            ({ w with jobQueue := [job], currentLoad := job.processingTime } :: rest) ∧
          (P.toList lb2.advanceAll.1.serverQueue).Perm
            ({ w with currentLoad := job.processingTime - 1,
                      jobQueue := if job.processingTime = 1 then []
                        else [{ job with processingTime := job.processingTime - 1 }] } ::
              rest)) ∧
    (P.toList lb1.serverQueue ≠ [] → ∃ r, lb1.distributeRequests = some r) ∧
    (∀ (rand : Nat → Nat) (currentTime : Int) (lb0 lb' : LoadBalancer P),
      lb0.requestQueue = [] →
      (lb0.addRandomRequests rand).write
        [LogLine.timeHeader currentTime lb0.requestQueue.length] = lb1 →
      lb0.round rand currentTime = some lb' →
        lb'.requestQueue = [] ∧
        ∃ (w : WebServer) (rest : List WebServer),
          (P.toList lb0.serverQueue).Perm (w :: rest) ∧
          (∀ x ∈ rest, x.Idle) ∧
          (P.toList lb'.serverQueue).Perm
            ({ w with currentLoad := job.processingTime - 1,
                      jobQueue := if job.processingTime = 1 then []
                        else [{ job with processingTime := job.processingTime - 1 }] } ::
              rest)) := by
  have hm : lb1.requestQueue.length ≤ P.size lb1.serverQueue →
      ∀ (lb2 : LoadBalancer P) (offers : List Offer),
      lb1.distributeRequests = some (lb2, offers) →
        lb2.requestQueue = [] ∧ lb2.advanceAll.1.requestQueue = [] ∧
        ∃ (w : WebServer) (rest : List WebServer),
          (P.toList lb1.serverQueue).Perm (w :: rest) ∧
          (∀ x ∈ rest, x.Idle) ∧
          (P.toList lb2.serverQueue).Perm
            ({ w with jobQueue := [job], currentLoad := job.processingTime } :: rest) ∧
          (P.toList lb2.advanceAll.1.serverQueue).Perm
            ({ w with currentLoad := job.processingTime - 1,
                      jobQueue := if job.processingTime = 1 then []
                        else [{ job with processingTime := job.processingTime - 1 }] } ::
              rest) := by
    intro hlen lb2 offers hr
    obtain ⟨ws, rest, e1, e2, e3, e4, e5⟩ := distributeRequests_idle lb1 lb2 offers hr hidle
      hlen (by rw [h1]; intro j hj; rw [List.mem_singleton.mp hj]; exact hk)
    rw [h1] at e3 e4 e5
    obtain ⟨w, hw⟩ : ∃ w, ws = [w] := by
      cases ws with
      | nil => simp at e3
      | cons a l =>
        cases l with
        | nil => exact ⟨a, rfl⟩
        | cons b l => simp at e3
    subst hw
    refine ⟨e1, e1, w, rest, e2, ?_, e4, e5⟩
    exact fun x hx => hidle x (e2.symm.subset (List.mem_cons_of_mem _ hx))
  have hstep : ∀ (lb2 : LoadBalancer P) (offers : List Offer),
      lb1.distributeRequests = some (lb2, offers) →
        lb1.requestQueue.length ≤ P.size lb1.serverQueue := by
    intro lb2 offers hr
    have hne : P.toList lb1.serverQueue ≠ [] := by
      rcases (distributeRequests_isSome_iff lb1).mp ⟨_, hr⟩ with h | h
      · exact h
      · rw [h1] at h; exact absurd h (by simp)
    rw [h1]
    simp only [List.length_singleton, PriorityQueue.size]
    exact Nat.succ_le_of_lt (List.length_pos.mpr hne)
  refine ⟨fun lb2 offers hr => hm (hstep lb2 offers hr) lb2 offers hr,
    distributeRequests_isSome lb1, ?_⟩
  intro rand t lb0 lb' h0 hlb1 hround
  obtain ⟨lb2, offers, hd, heq⟩ := round_unfold rand lb0 lb' t hround
  rw [hlb1] at hd
  obtain ⟨_, e2, w, rest, e3, e4, _, e6⟩ := hm (hstep lb2 offers hd) lb2 offers hd
  have hq : lb'.serverQueue = lb2.advanceAll.1.serverQueue := by
    rw [heq]; split <;> simp
  have hrq : lb'.requestQueue = lb2.advanceAll.1.requestQueue := by
    rw [heq]; split <;> simp
  have hpool0 : lb1.serverQueue = lb0.serverQueue := by
    rw [← hlb1]; simp
  rw [hpool0] at e3
  exact ⟨by rw [hrq]; exact e2, w, rest, e3, e4, by rw [hq]; exact e6⟩

theorem same_tick_start_witness :
    ∃ (lb' : LoadBalancer listQueue),
      (exampleBalancer idlePool []).round (fun _ => 0) 0 = some lb' ∧
      lb'.requestQueue = [] ∧
      (listQueue.toList lb'.serverQueue).map
          (fun w => (w.id, w.currentLoad, w.jobQueue.map Request.processingTime)) =
        [(1, 0, []), (2, 0, []), (0, 9, [9])] ∧
      ∃ (w : WebServer) (rest : List WebServer),
        (listQueue.toList (exampleBalancer idlePool []).serverQueue).Perm (w :: rest) ∧
        (∀ x ∈ rest, x.Idle) ∧
        (listQueue.toList lb'.serverQueue).Perm
          ({ w with currentLoad := (10 : Int) - 1,
                    jobQueue := if (10 : Int) = 1 then []
                      else [{ (⟨"192.168.0." ++ toString (0 % 255),
                                "10.0.0." ++ toString (0 % 255), 10, "UNKNOWN"⟩ : Request) with
                              processingTime := (10 : Int) - 1 }] } :: rest) :=
  ⟨_, rfl, rfl, by decide,
    ((same_tick_start listQueue
      (((exampleBalancer idlePool []).addRandomRequests (fun _ => 0)).write
        [LogLine.timeHeader 0 (exampleBalancer idlePool []).requestQueue.length])
      ⟨"192.168.0." ++ toString (0 % 255), "10.0.0." ++ toString (0 % 255), 10, "UNKNOWN"⟩
      rfl
      (by
        intro w hw
        have hw2 : w ∈ idlePool := hw
        simp only [idlePool, List.mem_cons, List.mem_singleton, List.not_mem_nil,
          or_false] at hw2
        rcases hw2 with rfl | rfl | rfl <;> decide)
      (by decide)).2.2 (fun _ => 0) 0 (exampleBalancer idlePool []) _ rfl rfl rfl).2⟩

end LoadBalancing
